import Mathlib

/-!
# A virtual EPROM kept in files, with a catalogue of named blobs

Shallow embedding of `source/veprom.cpp`.

* The file system is a partial map from path names to byte sequences. The
  context record (`FILENAME_CONTEXT`) lives in the same name space as the
  stores, exactly as in the source, where both are opened with `fopen`.
* Bytes are natural numbers; `size_t` values are natural numbers reduced
  modulo `SIZE_MOD` wherever the source computes with them. File sizes are
  taken as they are.
* `veprom.h` is not among the sources: its macros are the fields of `Config`,
  its enumeration of result codes is `eRetVal` with the names the source
  uses, and the header record is laid out as described in the specification.
* A `std::string` is its byte sequence, which may hold NUL bytes; `c_str` cuts
  it at the first one, as `c_str()` followed by `strcpy`, `strcmp`, `fopen` or
  `%s` does.
* A pointer together with its byte count is a list. Pointer arguments are
  taken to be non-null (the `NullPtr` tests do not fire), `malloc` to succeed,
  `fwrite` on an open stream to write everything and `fclose` of that stream
  to write it out. What the source leaves open is an argument of the model:
  the count `fwrite` reports on a stream that has been closed (`closedCount`
  in `create`), and whether the bytes written to a stream that is never closed
  have reached the file (`flushed` in `load`).
* The `while (true)` loops carry a fuel argument; `none` means that the fuel
  ran out before the loop returned.
-/

namespace Veprom

/-- Result codes used by `veprom.cpp` (the enumeration `Veprom::eRetVal`). -/
inductive eRetVal
  | OK
  | FilenamesExhausted
  | MemoryAllocError
  | FileCreationError
  | ContextNotFound
  | CannotOpenContext
  | CannotWriteContext
  | ContextNotLoaded
  | CannotGetSize
  | WriteOutOfBounds
  | OpenFailedWriteRaw
  | NullPtr
  | OpenFailedReadRaw
  | ReadOutOfBounds
  | FilenameTooLong
  | WriteFileDriveFull
  | FileNotFound
  | FilenameBufferInvalid
  deriving DecidableEq

/-- Byte sequences: file contents, buffers, and `std::string` values. -/
abbrev Bytes := List Nat

/-- The macros of `veprom.h` that the source uses, and the width of `size_t`. -/
structure Config where
  /-- number of candidate store names tried by `create` -/
  N_VEPROMS_ALLOWED : Nat
  /-- size of the name buffers, `char buf[SZ_FILENAME_BUF]` -/
  SZ_FILENAME_BUF : Nat
  /-- extension of the store names -/
  FILENAME_EXT : Bytes
  /-- path of the context record -/
  FILENAME_CONTEXT : Bytes
  /-- `sizeof(size_t)` in bytes -/
  SZ_SIZE_T : Nat

/-- The file system: which paths exist, and what they hold. -/
abbrev FS := Bytes → Option Bytes

/-- Number of values of `size_t`; arithmetic on `size_t` is modulo this. -/
def SIZE_MOD (cfg : Config) : Nat := 256 ^ cfg.SZ_SIZE_T

/-- The C string held by a `std::string`: the bytes before the first NUL. -/
def c_str (s : Bytes) : Bytes := s.takeWhile (fun b => b != 0)

/-- `fopen(path, "rb")`: the content of the file, `none` for a null stream. -/
def fopen_rb (fs : FS) (path : Bytes) : Option Bytes :=
  if c_str path = [] then none else fs (c_str path)

/-- `fopen(path, "wb")`, `fwrite` of `content`, and the flush of the stream. -/
def fwrite_wb (fs : FS) (path : Bytes) (content : Bytes) : FS :=
  fun p => if p = c_str path then some content else fs p

/-- `memcpy(buf + addr, data, length)` on a buffer of `buf.length` bytes.
Inside the buffer the slice at `addr` is replaced. Otherwise `buf + addr` is
an address computed modulo `SIZE_MOD`: byte `k` of the data goes to index
`(addr + k) mod SIZE_MOD` of the buffer when that index lies in the buffer;
what the bytes that go elsewhere in memory do is outside the model. -/
def memcpy (cfg : Config) (buf : Bytes) (addr : Nat) (data : Bytes) : Bytes :=
  if addr + data.length ≤ buf.length then
    buf.take addr ++ data ++ buf.drop (addr + data.length)
  else
    (List.range buf.length).map (fun i =>
      data.getD ((i + SIZE_MOD cfg - addr % SIZE_MOD cfg) % SIZE_MOD cfg) (buf.getD i 0))

/-- `fread` into a buffer: the bytes delivered replace the front of it. -/
def fread_into (buf got : Bytes) : Bytes := got ++ buf.drop got.length

/-- `Veprom::get_context`: at most `SZ_FILENAME_BUF - 1` bytes of the context
record, as a C string; empty when there is no record. -/
def get_context (cfg : Config) (fs : FS) : Bytes :=
  match fopen_rb fs cfg.FILENAME_CONTEXT with
  | none => []
  | some rec => c_str (rec.take (cfg.SZ_FILENAME_BUF - 1))

/-- `Veprom::get_size`; `none` stands for the result `false`, `some size` for
`true` with `*pSz = size`. -/
def get_size (cfg : Config) (fs : FS) : Option Nat :=
  let filename := get_context cfg fs
  if filename = [] then none
  else
    match fopen_rb fs filename with
    | none => none
    | some content => some content.length

/-- `Veprom::write_raw(addr, data, length)` with `length = data.length`: the
result code and the file system. The whole store is read, patched by `memcpy`
and written back. -/
def write_raw (cfg : Config) (fs : FS) (addr : Nat) (data : Bytes) : eRetVal × FS :=
  let filename := get_context cfg fs
  if filename = [] then (eRetVal.ContextNotLoaded, fs)
  else
    match get_size cfg fs with
    | none => (eRetVal.CannotGetSize, fs)
    | some size =>
      if (addr + data.length) % SIZE_MOD cfg > size then (eRetVal.WriteOutOfBounds, fs)
      else
        match fopen_rb fs filename with
        | none => (eRetVal.OpenFailedWriteRaw, fs)
        | some content => (eRetVal.OK, fwrite_wb fs filename (memcpy cfg content addr data))

/-- `Veprom::read_raw(addr, buf, length)`; the second component is the bytes
that `fread` delivered into `buf`. -/
def read_raw (cfg : Config) (fs : FS) (addr length : Nat) : eRetVal × Bytes :=
  let filename := get_context cfg fs
  if filename = [] then (eRetVal.ContextNotLoaded, [])
  else
    match get_size cfg fs with
    | none => (eRetVal.CannotGetSize, [])
    | some size =>
      match fopen_rb fs filename with
      | none => (eRetVal.OpenFailedReadRaw, [])
      | some content =>
        if (addr + length) % SIZE_MOD cfg > size then (eRetVal.ReadOutOfBounds, [])
        else (eRetVal.OK, (content.drop addr).take length)

/-- A store is active: the context record names it, it exists, and it is a
file other than the context record. -/
def ActiveStore (cfg : Config) (fs : FS) (name content : Bytes) : Prop :=
  get_context cfg fs = name ∧ name ≠ [] ∧ name ≠ c_str cfg.FILENAME_CONTEXT ∧
    fs name = some content

/-- Modelled from the spec: `sizeof(sFileHeader)`. The header record, declared
in `veprom.h`, is the name buffer of `SZ_FILENAME_BUF` bytes followed by one
fixed-width unsigned integer, the length, with no padding. The integer is a
`size_t`, the type of every length the source moves through it. -/
def sizeofHdr (cfg : Config) : Nat := cfg.SZ_FILENAME_BUF + cfg.SZ_SIZE_T

/-- The `w` bytes of an unsigned integer, least significant first. -/
def leEnc : Nat → Nat → Bytes
  | 0, _ => []
  | w + 1, n => n % 256 :: leEnc w (n / 256)

/-- The unsigned integer held by a byte sequence, least significant first. -/
def leDec : Bytes → Nat
  | [] => 0
  | b :: bs => b % 256 + 256 * leDec bs

/-- Modelled from the spec: the bytes of the header that `write` builds by
`memset` to zero, `strcpy` of the name and assignment of the length. The name
is at most `SZ_FILENAME_BUF - 1` bytes long when `write` gets here. -/
def mkHdr (cfg : Config) (filename : Bytes) (length : Nat) : Bytes :=
  c_str filename ++ List.replicate (cfg.SZ_FILENAME_BUF - (c_str filename).length) 0
    ++ leEnc cfg.SZ_SIZE_T length

/-- Modelled from the spec: the C string that starts at `hdr.filename`, the
first byte of the header. -/
def hdrFilename (hdr : Bytes) : Bytes := c_str hdr

/-- Modelled from the spec: the field `hdr.length`, the integer that follows
the name buffer. -/
def hdrLength (cfg : Config) (hdr : Bytes) : Nat :=
  leDec ((hdr.drop cfg.SZ_FILENAME_BUF).take cfg.SZ_SIZE_T)

/-- A header after `memset(&hdr, 0, sizeof(hdr))`. -/
def zeroHdr (cfg : Config) : Bytes := List.replicate (sizeofHdr cfg) 0

/-- The loop of `Veprom::get_free_pos`; `SIZE_MOD - 1` is the value `-1`. -/
def get_free_pos_loop (cfg : Config) (fs : FS) : Nat → Nat → Bytes → Option Nat
  | 0, _, _ => none
  | fuel + 1, pos, hdr =>
    let r := read_raw cfg fs pos (sizeofHdr cfg)
    if r.1 ≠ eRetVal.OK then some (SIZE_MOD cfg - 1)
    else
      let hdr1 := fread_into hdr r.2
      if hdr1.headD 0 = 0 then some pos
      else
        get_free_pos_loop cfg fs fuel
          ((pos + (sizeofHdr cfg + hdrLength cfg hdr1)) % SIZE_MOD cfg) hdr1

/-- `Veprom::get_free_pos`. -/
def get_free_pos (cfg : Config) (fuel : Nat) (fs : FS) : Option Nat :=
  get_free_pos_loop cfg fs fuel 0 (zeroHdr cfg)

/-- `Veprom::write(filename, buf, length)` with `length = buf.length`. -/
def write (cfg : Config) (fuel : Nat) (fs : FS) (filename buf : Bytes) :
    Option (eRetVal × FS) :=
  if filename.length > cfg.SZ_FILENAME_BUF - 1 then some (eRetVal.FilenameTooLong, fs)
  else
    match get_free_pos cfg fuel fs with
    | none => none
    | some pos =>
      if pos = SIZE_MOD cfg - 1 then some (eRetVal.WriteFileDriveFull, fs)
      else
        let hdr := mkHdr cfg filename (buf.length % SIZE_MOD cfg)
        let retHdr := write_raw cfg fs pos hdr
        let pos1 := (pos + sizeofHdr cfg) % SIZE_MOD cfg
        if retHdr.1 ≠ eRetVal.OK then some retHdr
        else some (write_raw cfg retHdr.2 pos1 buf)

/-- The loop of `Veprom::list`. -/
def list_loop (cfg : Config) (fs : FS) : Nat → Nat → Bytes → List Bytes → Option (List Bytes)
  | 0, _, _, _ => none
  | fuel + 1, pos, hdr, acc =>
    let r := read_raw cfg fs pos (sizeofHdr cfg)
    if r.1 ≠ eRetVal.OK then some acc
    else
      let hdr1 := fread_into hdr r.2
      if hdr1.headD 0 = 0 then some acc
      else
        list_loop cfg fs fuel
          ((pos + sizeofHdr cfg + hdrLength cfg hdr1) % SIZE_MOD cfg) hdr1
          (acc ++ [hdrFilename hdr1])

/-- `Veprom::list`. -/
def list (cfg : Config) (fuel : Nat) (fs : FS) : Option (eRetVal × List Bytes) :=
  match get_size cfg fs with
  | none => some (eRetVal.CannotGetSize, [])
  | some _ => (list_loop cfg fs fuel 0 (zeroHdr cfg) []).map (fun l => (eRetVal.OK, l))

/-- The loop of `Veprom::read`: `some none` when it returns `FileNotFound`,
`some (some (pos, hdr))` when it leaves through `break`. -/
def read_loop (cfg : Config) (fs : FS) (filename : Bytes) :
    Nat → Nat → Bytes → Option (Option (Nat × Bytes))
  | 0, _, _ => none
  | fuel + 1, pos, hdr =>
    let r := read_raw cfg fs pos (sizeofHdr cfg)
    if r.1 ≠ eRetVal.OK then some none
    else
      let hdr1 := fread_into hdr r.2
      let pos1 := (pos + sizeofHdr cfg) % SIZE_MOD cfg
      if hdrFilename hdr1 = c_str filename then some (some (pos1, hdr1))
      else read_loop cfg fs filename fuel ((pos1 + hdrLength cfg hdr1) % SIZE_MOD cfg) hdr1

/-- `Veprom::read(filename, pBuf, pLen)`: the result code, `*pLen`, and the
bytes delivered into `*pBuf`. -/
def read (cfg : Config) (fuel : Nat) (fs : FS) (filename : Bytes) :
    Option (eRetVal × Nat × Bytes) :=
  match get_size cfg fs with
  | none => some (eRetVal.CannotGetSize, 0, [])
  | some _ =>
    match read_loop cfg fs filename fuel 0 (zeroHdr cfg) with
    | none => none
    | some none => some (eRetVal.FileNotFound, 0, [])
    | some (some (pos, hdr)) =>
      let r := read_raw cfg fs pos (hdrLength cfg hdr)
      if r.1 ≠ eRetVal.OK then some (eRetVal.FilenameBufferInvalid, 0, [])
      else some (eRetVal.OK, hdrLength cfg hdr, r.2)

/-- The state of the stream pointer `fid` in `create`. -/
inductive Fid
  | null
  | closed
  | writing (filename : Bytes)
  deriving DecidableEq

/-- Decimal digits of `n`, most significant first, prepended to `acc`. -/
def decimalAux : Nat → Nat → Bytes → Bytes
  | 0, _, acc => acc
  | fuel + 1, n, acc =>
    if n / 10 = 0 then (48 + n % 10) :: acc
    else decimalAux fuel (n / 10) ((48 + n % 10) :: acc)

/-- What `%i` prints for a non-negative `int`. -/
def decimal (n : Nat) : Bytes := decimalAux (n + 1) n []

/-- The name `sprintf(buf, "veprom_%i%s", i, FILENAME_EXT)` leaves in `buf`. -/
def candidate (cfg : Config) (i : Nat) : Bytes :=
  c_str ([118, 101, 112, 114, 111, 109, 95] ++ decimal i ++ cfg.FILENAME_EXT)

/-- The `for` loop of `Veprom::create`: `n` iterations are left, the next
index is `i`. -/
def create_loop (cfg : Config) (fs : FS) : Nat → Nat → Fid → Fid
  | 0, _, fid => fid
  | n + 1, i, _ =>
    match fopen_rb fs (candidate cfg i) with
    | none => Fid.writing (candidate cfg i)
    | some _ => create_loop cfg fs n (i + 1) Fid.closed

/-- `Veprom::create(size, filename)`: the result code, the value assigned to
`filename` if any, and the file system. `fwrite` on a stream that has been
closed is undefined; the count it reports is the argument `closedCount`. -/
def create (cfg : Config) (fs : FS) (size closedCount : Nat) : eRetVal × Option Bytes × FS :=
  match create_loop cfg fs cfg.N_VEPROMS_ALLOWED 0 Fid.null with
  | Fid.null => (eRetVal.FilenamesExhausted, none, fs)
  | Fid.closed =>
    if closedCount ≠ size then (eRetVal.FileCreationError, none, fs)
    else (eRetVal.OK, none, fs)
  | Fid.writing filename =>
    (eRetVal.OK, some filename, fwrite_wb fs filename (List.replicate size 0))

/-- `Veprom::load`. The test that returns `CannotOpenContext` looks at the
stream of the store, which is not null at that point, and never fires.
`fopen(FILENAME_CONTEXT, "wb")` empties the context record and `fwrite` puts
the name into the stream, but `load` does not close that stream: its last
call is a second `fclose` on the stream of the store. Whether the name has
reached the record when `load` is over is the argument `flushed`; if not, the
record is empty. -/
def load (cfg : Config) (fs : FS) (filename : Bytes) (flushed : Bool) : eRetVal × FS :=
  match fopen_rb fs filename with
  | none => (eRetVal.ContextNotFound, fs)
  | some _ =>
    (eRetVal.OK, fwrite_wb fs cfg.FILENAME_CONTEXT (if flushed then filename else []))

/-- The header-sized slice of a store content at offset `pos`. -/
def hdrAt (cfg : Config) (c : Bytes) (pos : Nat) : Bytes :=
  (c.drop pos).take (sizeofHdr cfg)

/-- The store content `c` holds, from offset `pos` up to offset `p`, the
entries `es` (name and data) one after the other: each header carries a
non-empty name and the length of its data, and the next entry starts right
after the data. -/
def Catalog (cfg : Config) (c : Bytes) : Nat → List (Bytes × Bytes) → Nat → Prop
  | pos, [], p => pos = p
  | pos, e :: es, p =>
    e.1 ≠ [] ∧ hdrFilename (hdrAt cfg c pos) = e.1 ∧
      hdrLength cfg (hdrAt cfg c pos) = e.2.length ∧
      (c.drop (pos + sizeofHdr cfg)).take e.2.length = e.2 ∧
      pos + sizeofHdr cfg + e.2.length ≤ c.length ∧
      Catalog cfg c (pos + sizeofHdr cfg + e.2.length) es p

/-- A run of `write` calls in which every call returns `OK`; `none` if one of
them does not. -/
def writeAll (cfg : Config) (fuel : Nat) : FS → List (Bytes × Bytes) → Option FS
  | fs, [] => some fs
  | fs, e :: ops =>
    match write cfg fuel fs e.1 e.2 with
    | none => none
    | some r => if r.1 = eRetVal.OK then writeAll cfg fuel r.2 ops else none

/-- The store content after `write` has put a header and the data at `p`. -/
def written (cfg : Config) (c : Bytes) (p : Nat) (filename data : Bytes) : Bytes :=
  memcpy cfg (memcpy cfg c p (mkHdr cfg filename (data.length % SIZE_MOD cfg)))
    (p + sizeofHdr cfg) data

/-- The store content is the packed catalogue `es` followed by zero bytes. -/
def Packed (cfg : Config) (c : Bytes) (es : List (Bytes × Bytes)) : Prop :=
  ∃ p, Catalog cfg c 0 es p ∧ p ≤ c.length ∧ c.drop p = List.replicate (c.length - p) 0

/-- A sample configuration: 256 stores, 16-byte names, 64-bit `size_t`. -/
def cfg0 : Config :=
  { N_VEPROMS_ALLOWED := 256
    SZ_FILENAME_BUF := 16
    FILENAME_EXT := [46, 109, 97, 112]
    FILENAME_CONTEXT := [99, 116, 120]
    SZ_SIZE_T := 8 }

/-- A file system with the 4-byte store `v` selected. -/
def fsRaw : FS := fun p =>
  if p = [99, 116, 120] then some [118]
  else if p = [118] then some [10, 20, 30, 40]
  else none

/-- A file system in which every name starting with `veprom_` is taken. -/
def fsFull : FS := fun p =>
  if p.take 7 = [118, 101, 112, 114, 111, 109, 95] then some [0] else none

/-- A configuration with a 12-byte header: 4-byte names, 64-bit `size_t`. -/
def cfg12 : Config :=
  { N_VEPROMS_ALLOWED := 256
    SZ_FILENAME_BUF := 4
    FILENAME_EXT := [46, 109, 97, 112]
    FILENAME_CONTEXT := [99, 116, 120]
    SZ_SIZE_T := 8 }

/-- A file system with the store `v` of `n` zero bytes selected. -/
def fsZero (n : Nat) : FS := fun p =>
  if p = [99, 116, 120] then some [118]
  else if p = [118] then some (List.replicate n 0)
  else none

/-- The sample configuration with three candidate store names. -/
def cfg3 : Config :=
  { N_VEPROMS_ALLOWED := 3
    SZ_FILENAME_BUF := 16
    FILENAME_EXT := [46, 109, 97, 112]
    FILENAME_CONTEXT := [99, 116, 120]
    SZ_SIZE_T := 8 }

/-- The 64-byte store content with the single entry `a` holding `[1]`. -/
def contentA : Bytes :=
  [97, 0, 0, 0, 1, 0, 0, 0, 0, 0, 0, 0, 1] ++ List.replicate 51 0

/-- A file system with the store `v` of content `contentA` selected. -/
def fsA : FS := fun p =>
  if p = [99, 116, 120] then some [118]
  else if p = [118] then some contentA
  else none

/-- Two writes: `a` with `[1, 2, 3]`, then `b` with `[4, 5]`. -/
def opsAB : List (Bytes × Bytes) := [([97], [1, 2, 3]), ([98], [4, 5])]

/-- Two writes: the empty name with twelve bytes that read as a header named
`x`, then `y` with no data. -/
def opsGhost : List (Bytes × Bytes) :=
  [([], [120, 0, 0, 0, 0, 0, 0, 0, 0, 0, 0, 0]), ([121], [])]

/-- A file system with two 8-byte stores, `A` and `B`; `A` is selected and
holds data, `B` is fresh. -/
def fsTwo : FS := fun p =>
  if p = [99, 116, 120] then some [65]
  else if p = [65] then some [1, 2, 3, 4, 5, 6, 7, 8]
  else if p = [66] then some (List.replicate 8 0)
  else none

/-- Writes of `n` twice, with `b` in between: `n` with `[7]`, `b` with
`[4, 5]`, `n` with `[9]`. -/
def opsDup : List (Bytes × Bytes) := [([110], [7]), ([98], [4, 5]), ([110], [9])]

/-- Writes of `n` twice with two writes in between, the first of them under
the empty name: its twelve data bytes read as a header named `z` whose length
`2^64 - 36` sends the scan from offset 25 to offset 1. -/
def opsWrap : List (Bytes × Bytes) :=
  [([110], [7]), ([], [122, 0, 0, 0, 220, 255, 255, 255, 255, 255, 255, 255]), ([98], []),
    ([110], [9])]

/-- A file system with the store `abcd`, whose name is as long as the name
buffer of `cfg12`, and no context record. -/
def fsLong : FS := fun p =>
  if p = [97, 98, 99, 100] then some [0, 0] else none

/-- A file system whose context record names the file `w`, which does not
exist. -/
def fsStale : FS := fun p =>
  if p = [99, 116, 120] then some [119]
  else if p = [118] then some [10, 20, 30, 40]
  else none

/-- A file system with the store `v` and no context record. -/
def fsNoCtx : FS := fun p =>
  if p = [118] then some [10, 20, 30, 40] else none

/-- The header as the layout claim words it: the name, zero-padded to the size
of the name buffer, followed by the length in the fixed-width length field. -/
def hdrOf (cfg : Config) (n : Bytes) (l : Nat) : Bytes :=
  n ++ List.replicate (cfg.SZ_FILENAME_BUF - n.length) 0 ++ leEnc cfg.SZ_SIZE_T l

/-- The bytes of a packed catalogue: every entry is its header followed by its
data, and the entries follow one another without gaps. -/
def layout (cfg : Config) : List (Bytes × Bytes) → Bytes
  | [] => []
  | e :: es => hdrOf cfg e.1 e.2.length ++ e.2 ++ layout cfg es

/-- The sum of header size plus data length over the entries. -/
def totalSize (cfg : Config) : List (Bytes × Bytes) → Nat
  | [] => 0
  | e :: es => sizeofHdr cfg + e.2.length + totalSize cfg es

/-- A header named `x` with length 2, followed by the two data bytes. -/
def entryX : Bytes := [120, 0, 0, 0, 2, 0, 0, 0, 0, 0, 0, 0, 5, 6]

/-- A header named `a` whose length field holds `2^64 - 12`. -/
def hdrLoop : Bytes := [97, 0, 0, 0, 244, 255, 255, 255, 255, 255, 255, 255]

/-- The 64-byte store content that starts with `hdrLoop`. -/
def contentLoop : Bytes := hdrLoop ++ List.replicate 52 0

/-- A file system with the store `v` of content `contentLoop` selected. -/
def fsLoop : FS := fun p =>
  if p = [99, 116, 120] then some [118]
  else if p = [118] then some contentLoop
  else none

/-- The writes of `opsWrap` with the length 3 in the twelve data bytes: the
scan goes on from offset 25 to offset 40. -/
def opsNoWrap : List (Bytes × Bytes) :=
  [([110], [7]), ([], [122, 0, 0, 0, 3, 0, 0, 0, 0, 0, 0, 0]), ([98], []), ([110], [9])]

/-! ## Files, the context record and raw access -/

theorem c_str_idem (s : Bytes) : c_str (c_str s) = c_str s := by
  unfold c_str
  induction s with
  | nil => rfl
  | cons b t ih =>
    by_cases hb : (b != 0) = true
    · simp [List.takeWhile_cons, hb, ih]
    · simp [List.takeWhile_cons, hb]

theorem get_context_c_str (cfg : Config) (fs : FS) :
    c_str (get_context cfg fs) = get_context cfg fs := by
  unfold get_context
  cases fopen_rb fs cfg.FILENAME_CONTEXT with
  | none => rfl
  | some rec => exact c_str_idem _

theorem ActiveStore.c_str_name {cfg : Config} {fs : FS} {name content : Bytes}
    (h : ActiveStore cfg fs name content) : c_str name = name := by
  rw [← h.1]; exact get_context_c_str cfg fs

theorem ActiveStore.fopen {cfg : Config} {fs : FS} {name content : Bytes}
    (h : ActiveStore cfg fs name content) : fopen_rb fs name = some content := by
  unfold fopen_rb
  rw [h.c_str_name, if_neg h.2.1, h.2.2.2]

theorem ActiveStore.get_size {cfg : Config} {fs : FS} {name content : Bytes}
    (h : ActiveStore cfg fs name content) : get_size cfg fs = some content.length := by
  unfold Veprom.get_size
  simp only [h.1, if_neg h.2.1, h.fopen]

theorem ActiveStore.read_raw {cfg : Config} {fs : FS} {name content : Bytes}
    (h : ActiveStore cfg fs name content) (addr length : Nat) :
    read_raw cfg fs addr length =
      if (addr + length) % SIZE_MOD cfg > content.length then (eRetVal.ReadOutOfBounds, [])
      else (eRetVal.OK, (content.drop addr).take length) := by
  unfold Veprom.read_raw
  simp only [h.get_size, h.1, if_neg h.2.1, h.fopen]

theorem ActiveStore.write_raw {cfg : Config} {fs : FS} {name content : Bytes}
    (h : ActiveStore cfg fs name content) (addr : Nat) (data : Bytes) :
    write_raw cfg fs addr data =
      if (addr + data.length) % SIZE_MOD cfg > content.length then
        (eRetVal.WriteOutOfBounds, fs)
      else (eRetVal.OK, fwrite_wb fs name (memcpy cfg content addr data)) := by
  unfold Veprom.write_raw
  simp only [h.get_size, h.1, if_neg h.2.1, h.fopen]

theorem ActiveStore.update {cfg : Config} {fs : FS} {name content : Bytes}
    (h : ActiveStore cfg fs name content) (content1 : Bytes) :
    ActiveStore cfg (fwrite_wb fs name content1) name content1 := by
  have hc := h.c_str_name
  have hctx : fopen_rb (fwrite_wb fs name content1) cfg.FILENAME_CONTEXT
      = fopen_rb fs cfg.FILENAME_CONTEXT := by
    unfold fopen_rb fwrite_wb
    by_cases he : c_str cfg.FILENAME_CONTEXT = []
    · simp [he]
    · simp only [if_neg he, hc]
      rw [if_neg (fun hx => h.2.2.1 hx.symm)]
  refine ⟨?_, h.2.1, h.2.2.1, ?_⟩
  · have := h.1
    unfold get_context at this ⊢
    rw [hctx]; exact this
  · unfold fwrite_wb; simp [hc]

theorem memcpy_length (cfg : Config) (buf : Bytes) (addr : Nat) (data : Bytes) :
    (memcpy cfg buf addr data).length = buf.length := by
  unfold memcpy
  split
  · simp only [List.length_append, List.length_take, List.length_drop]
    omega
  · simp

theorem memcpy_inside (cfg : Config) (buf : Bytes) (addr : Nat) (data : Bytes)
    (h : addr + data.length ≤ buf.length) :
    memcpy cfg buf addr data = buf.take addr ++ data ++ buf.drop (addr + data.length) := by
  unfold memcpy
  rw [if_pos h]

theorem read_memcpy (cfg : Config) (buf : Bytes) (addr : Nat) (data : Bytes)
    (h : addr + data.length ≤ buf.length) :
    ((memcpy cfg buf addr data).drop addr).take data.length = data := by
  rw [memcpy_inside cfg buf addr data h, List.append_assoc]
  have hl : (buf.take addr).length = addr := by
    rw [List.length_take]; omega
  rw [List.drop_append_of_le_length (by omega), List.drop_of_length_le (by omega)]
  simp

/-- C1. Raw round trip: with an active store of size `C` and
`addr + len(bytes) <= C`, `write_raw(addr, bytes)` returns `OK`, and the
`read_raw(addr, buf, len(bytes))` that follows returns `OK` with `bytes`. -/
theorem raw_round_trip (cfg : Config) (fs : FS) (name content : Bytes)
    (addr : Nat) (bytes : Bytes)
    (hact : ActiveStore cfg fs name content)
    (hfit : addr + bytes.length ≤ content.length) :
    (write_raw cfg fs addr bytes).1 = eRetVal.OK ∧
      read_raw cfg (write_raw cfg fs addr bytes).2 addr bytes.length
        = (eRetVal.OK, bytes) := by
  have hle : ¬ (addr + bytes.length) % SIZE_MOD cfg > content.length := by
    have := Nat.mod_le (addr + bytes.length) (SIZE_MOD cfg)
    omega
  rw [hact.write_raw, if_neg hle]
  refine ⟨rfl, ?_⟩
  rw [(hact.update (memcpy cfg content addr bytes)).read_raw, memcpy_length, if_neg hle,
    read_memcpy cfg content addr bytes hfit]


/-- Witness of C1 on the 4-byte store of `fsRaw`. -/
theorem raw_round_trip_witness :
    ActiveStore cfg0 fsRaw [118] [10, 20, 30, 40] ∧ 1 + [7, 8].length ≤ 4 ∧
      (write_raw cfg0 fsRaw 1 [7, 8]).1 = eRetVal.OK ∧
      read_raw cfg0 (write_raw cfg0 fsRaw 1 [7, 8]).2 1 2 = (eRetVal.OK, [7, 8]) :=
  ⟨by unfold ActiveStore; decide, by decide,
    raw_round_trip cfg0 fsRaw [118] [10, 20, 30, 40] 1 [7, 8]
      (by unfold ActiveStore; decide) (by decide)⟩

/-- C2, evaluated where the sum of `addr` and `length` passes `SIZE_MOD`: on the
4-byte store of `fsRaw`, `read_raw(1, buf, 2^64 - 1)` and
`write_raw(2^64 - 1, data, 2)` have a range that ends beyond the store, and yet
both return `OK` instead of `ReadOutOfBounds` and `WriteOutOfBounds`. -/
theorem out_of_bounds_wraps :
    ActiveStore cfg0 fsRaw [118] [10, 20, 30, 40] ∧
      1 + (2 ^ 64 - 1) > 4 ∧ 1 < SIZE_MOD cfg0 ∧ 2 ^ 64 - 1 < SIZE_MOD cfg0 ∧
      read_raw cfg0 fsRaw 1 (2 ^ 64 - 1) = (eRetVal.OK, [20, 30, 40]) ∧
      (read_raw cfg0 fsRaw 1 (2 ^ 64 - 1)).1 ≠ eRetVal.ReadOutOfBounds ∧
      (2 ^ 64 - 1) + [1, 2].length > 4 ∧
      (write_raw cfg0 fsRaw (2 ^ 64 - 1) [1, 2]).1 = eRetVal.OK ∧
      (write_raw cfg0 fsRaw (2 ^ 64 - 1) [1, 2]).1 ≠ eRetVal.WriteOutOfBounds := by
  refine ⟨by unfold ActiveStore; decide, by decide, by decide, by decide, by decide,
    by decide, by decide, by decide, by decide⟩

/-! ## The blob catalogue -/

theorem write_raw_ne_too_long (cfg : Config) (fs : FS) (addr : Nat) (data : Bytes) :
    (write_raw cfg fs addr data).1 ≠ eRetVal.FilenameTooLong := by
  unfold write_raw
  simp only
  split
  · simp
  · split
    · simp
    · split
      · simp
      · split <;> simp

/-- C7. A name of `SZ_FILENAME_BUF` bytes or more makes `write` return
`FilenameTooLong` in every state and for every data, and the file system
(every store and the context record) is left as it was; a name of at most
`SZ_FILENAME_BUF - 1` bytes never gives `FilenameTooLong`. -/
theorem write_filename_too_long (cfg : Config) (fuel : Nat) (fs : FS) (filename buf : Bytes)
    (hK : 1 ≤ cfg.SZ_FILENAME_BUF) :
    (cfg.SZ_FILENAME_BUF ≤ filename.length →
        write cfg fuel fs filename buf = some (eRetVal.FilenameTooLong, fs)) ∧
      (filename.length ≤ cfg.SZ_FILENAME_BUF - 1 →
        ∀ fs1, write cfg fuel fs filename buf ≠ some (eRetVal.FilenameTooLong, fs1)) := by
  constructor
  · intro h
    unfold write
    rw [if_pos (by omega)]
  · intro h fs1
    unfold write
    rw [if_neg (by omega)]
    cases get_free_pos cfg fuel fs with
    | none => simp
    | some pos =>
      simp only
      split
      · simp
      · split
        · rename_i hne
          intro heq
          have h1 := congrArg (fun o => o.map Prod.fst) heq
          simp only [Option.map_some'] at h1
          exact write_raw_ne_too_long _ _ _ _ (Option.some.inj h1)
        · intro heq
          have h1 := congrArg (fun o => o.map Prod.fst) heq
          simp only [Option.map_some'] at h1
          exact write_raw_ne_too_long _ _ _ _ (Option.some.inj h1)

/-- Witness of C7: a 16-byte name is refused, a 1-byte name is not. -/
theorem write_filename_too_long_witness :
    1 ≤ cfg0.SZ_FILENAME_BUF ∧
      write cfg0 3 fsRaw (List.replicate 16 97) [1, 2]
        = some (eRetVal.FilenameTooLong, fsRaw) ∧
      (∀ fs1, write cfg0 3 fsRaw [97] [1, 2] ≠ some (eRetVal.FilenameTooLong, fs1)) :=
  ⟨by decide,
    (write_filename_too_long cfg0 3 fsRaw (List.replicate 16 97) [1, 2] (by decide)).1
      (by decide),
    (write_filename_too_long cfg0 3 fsRaw [97] [1, 2] (by decide)).2 (by decide)⟩

theorem write_of_exhausted (cfg : Config) (fuel : Nat) (fs : FS) (filename buf : Bytes)
    (hname : filename.length ≤ cfg.SZ_FILENAME_BUF - 1)
    (hfree : get_free_pos cfg fuel fs = some (SIZE_MOD cfg - 1)) :
    write cfg fuel fs filename buf = some (eRetVal.WriteFileDriveFull, fs) := by
  unfold write
  rw [if_neg (by omega), hfree]
  simp

theorem get_free_pos_small_store (cfg : Config) (fuel : Nat) (fs : FS) (name content : Bytes)
    (hact : ActiveStore cfg fs name content)
    (hsmall : content.length < sizeofHdr cfg) (hH : sizeofHdr cfg < SIZE_MOD cfg)
    (hfuel : 0 < fuel) :
    get_free_pos cfg fuel fs = some (SIZE_MOD cfg - 1) := by
  obtain ⟨f, rfl⟩ : ∃ f, fuel = f + 1 := ⟨fuel - 1, by omega⟩
  unfold get_free_pos get_free_pos_loop
  simp only [hact.read_raw, Nat.zero_add, Nat.mod_eq_of_lt hH]
  rw [if_pos hsmall]
  simp

/-- C10. When `get_free_pos()` reports exhaustion, `write` with a legal name
returns `WriteFileDriveFull` and leaves the file system as it was; this is
what happens, for every data, on an active store that is smaller than one
header. -/
theorem write_drive_full (cfg : Config) (fuel : Nat) (fs : FS) (filename buf : Bytes)
    (hname : filename.length ≤ cfg.SZ_FILENAME_BUF - 1) :
    (get_free_pos cfg fuel fs = some (SIZE_MOD cfg - 1) →
        write cfg fuel fs filename buf = some (eRetVal.WriteFileDriveFull, fs)) ∧
      (∀ name content, ActiveStore cfg fs name content →
        content.length < sizeofHdr cfg → sizeofHdr cfg < SIZE_MOD cfg → 0 < fuel →
        get_free_pos cfg fuel fs = some (SIZE_MOD cfg - 1) ∧
          write cfg fuel fs filename buf = some (eRetVal.WriteFileDriveFull, fs)) := by
  refine ⟨write_of_exhausted cfg fuel fs filename buf hname, ?_⟩
  intro name content hact hsmall hH hfuel
  have hfree := get_free_pos_small_store cfg fuel fs name content hact hsmall hH hfuel
  exact ⟨hfree, write_of_exhausted cfg fuel fs filename buf hname hfree⟩

/-- Witness of C10: a store of 8 bytes, a header of 12 bytes, the name `x`
and no data. -/
theorem write_drive_full_witness :
    sizeofHdr cfg12 = 12 ∧ ActiveStore cfg12 (fsZero 8) [118] (List.replicate 8 0) ∧
      [120].length ≤ cfg12.SZ_FILENAME_BUF - 1 ∧
      get_free_pos cfg12 1 (fsZero 8) = some (SIZE_MOD cfg12 - 1) ∧
      write cfg12 1 (fsZero 8) [120] [] = some (eRetVal.WriteFileDriveFull, fsZero 8) :=
  ⟨by decide, by unfold ActiveStore; decide, by decide,
    (write_drive_full cfg12 1 (fsZero 8) [120] [] (by decide)).2 [118] (List.replicate 8 0)
      (by unfold ActiveStore; decide) (by decide) (by decide) (by decide)⟩

/-! ## Creating and selecting stores -/

theorem create_loop_all_taken (cfg : Config) (fs : FS) :
    ∀ (n i : Nat) (fid : Fid), 0 < n →
      (∀ j, i ≤ j → j < i + n → fopen_rb fs (candidate cfg j) ≠ none) →
      create_loop cfg fs n i fid = Fid.closed := by
  intro n
  induction n with
  | zero => intro i fid h; omega
  | succ m ih =>
    intro i fid _ hall
    unfold create_loop
    have hi := hall i (Nat.le_refl i) (by omega)
    cases hf : fopen_rb fs (candidate cfg i) with
    | none => exact absurd hf hi
    | some c =>
      simp only
      cases m with
      | zero => rfl
      | succ k =>
        exact ih (i + 1) Fid.closed (by omega) (fun j h1 h2 => hall j (by omega) (by omega))

theorem create_all_taken (cfg : Config) (fs : FS) (size closedCount : Nat)
    (hN : 0 < cfg.N_VEPROMS_ALLOWED)
    (hall : ∀ j, j < cfg.N_VEPROMS_ALLOWED → fopen_rb fs (candidate cfg j) ≠ none) :
    create cfg fs size closedCount =
      if closedCount ≠ size then (eRetVal.FileCreationError, none, fs)
      else (eRetVal.OK, none, fs) := by
  unfold create
  rw [create_loop_all_taken cfg fs cfg.N_VEPROMS_ALLOWED 0 Fid.null hN
    (fun j _ h => hall j (by omega))]

theorem candidate_eq (cfg : Config) (i : Nat) :
    candidate cfg i
      = [118, 101, 112, 114, 111, 109, 95] ++ c_str (decimal i ++ cfg.FILENAME_EXT) := by
  simp [candidate, c_str, List.takeWhile_cons]

theorem candidate_ne_nil (cfg : Config) (i : Nat) : candidate cfg i ≠ [] := by
  rw [candidate_eq]; simp

theorem candidate_c_str (cfg : Config) (i : Nat) :
    c_str (candidate cfg i) = candidate cfg i := by
  unfold candidate; exact c_str_idem _

theorem fsFull_all_taken :
    ∀ j, j < cfg0.N_VEPROMS_ALLOWED → fopen_rb fsFull (candidate cfg0 j) ≠ none := by
  intro j _
  unfold fopen_rb
  rw [candidate_c_str, if_neg (candidate_ne_nil cfg0 j), candidate_eq]
  simp [fsFull]

/-- C9, evaluated where the claim fails: with a store under each of the 256
candidate names, `create(8)` does not return `FilenamesExhausted`. The stream
pointer still holds the stream that was closed last, so the test for a null
pointer passes and `fwrite` is called on it: the result is `FileCreationError`,
or `OK` if that call reports 8 bytes, and no name is assigned. -/
theorem create_exhausted_not_reported :
    (∀ j, j < cfg0.N_VEPROMS_ALLOWED → fopen_rb fsFull (candidate cfg0 j) ≠ none) ∧
      (∀ closedCount, (create cfg0 fsFull 8 closedCount).1 ≠ eRetVal.FilenamesExhausted) ∧
      (∀ closedCount, closedCount ≠ 8 →
        create cfg0 fsFull 8 closedCount = (eRetVal.FileCreationError, none, fsFull)) := by
  refine ⟨fsFull_all_taken, ?_, ?_⟩
  · intro k
    rw [create_all_taken cfg0 fsFull 8 k (by decide) fsFull_all_taken]
    split <;> simp
  · intro k hk
    rw [create_all_taken cfg0 fsFull 8 k (by decide) fsFull_all_taken, if_pos hk]

theorem create_loop_first_free (cfg : Config) (fs : FS) :
    ∀ (n i : Nat) (fid : Fid),
      (∃ j, i ≤ j ∧ j < i + n ∧ fopen_rb fs (candidate cfg j) = none) →
      ∃ j, i ≤ j ∧ j < i + n ∧ fopen_rb fs (candidate cfg j) = none ∧
        (∀ k, i ≤ k → k < j → fopen_rb fs (candidate cfg k) ≠ none) ∧
        create_loop cfg fs n i fid = Fid.writing (candidate cfg j) := by
  intro n
  induction n with
  | zero =>
    intro i fid h
    obtain ⟨j, h1, h2, _⟩ := h
    omega
  | succ m ih =>
    intro i fid h
    unfold create_loop
    cases hf : fopen_rb fs (candidate cfg i) with
    | none =>
      exact ⟨i, Nat.le_refl i, by omega, hf, fun k h1 h2 => by omega, rfl⟩
    | some c =>
      obtain ⟨j, h1, h2, h3⟩ := h
      have hij : j ≠ i := by
        intro he; subst he; rw [hf] at h3; cases h3
      obtain ⟨j1, g1, g2, g3, g4, g5⟩ :=
        ih (i + 1) Fid.closed ⟨j, by omega, by omega, h3⟩
      refine ⟨j1, by omega, by omega, g3, ?_, g5⟩
      intro k k1 k2
      by_cases hk : k = i
      · subst hk; rw [hf]; simp
      · exact g4 k (by omega) k2

theorem active_after_load (cfg : Config) (fs : FS) (name content : Bytes)
    (hname : c_str name = name) (hne : name ≠ [])
    (hlen : name.length ≤ cfg.SZ_FILENAME_BUF - 1)
    (hctx : c_str cfg.FILENAME_CONTEXT ≠ [])
    (hsep : name ≠ c_str cfg.FILENAME_CONTEXT)
    (hfile : fs name = some content) :
    load cfg fs name true = (eRetVal.OK, fwrite_wb fs cfg.FILENAME_CONTEXT name) ∧
      ActiveStore cfg (fwrite_wb fs cfg.FILENAME_CONTEXT name) name content := by
  have hopen : fopen_rb fs name = some content := by
    unfold fopen_rb; rw [hname, if_neg hne, hfile]
  constructor
  · unfold load; rw [hopen]; rfl
  · refine ⟨?_, hne, hsep, ?_⟩
    · unfold get_context fopen_rb
      rw [if_neg hctx]
      simp only [fwrite_wb, if_true]
      rw [List.take_of_length_le hlen, hname]
    · simp only [fwrite_wb]
      rw [if_neg hsep, hfile]

/-- Creation and selection when the name written by `load` has reached the
context record: if a candidate name is free, `create(capacity)` returns `OK`
and a name; after `load` of that name, `get_size` yields `capacity` and
`read_raw(0, buf, capacity)` returns `OK` with `capacity` zero bytes. The
configuration is one in which the candidate names fit the name buffer and
differ from the path of the context record. -/
theorem create_load_fresh (cfg : Config) (fs : FS) (capacity closedCount : Nat)
    (_hcap : 0 < capacity)
    (hfree : ∃ j, j < cfg.N_VEPROMS_ALLOWED ∧ fopen_rb fs (candidate cfg j) = none)
    (hfit : ∀ j, j < cfg.N_VEPROMS_ALLOWED →
      (candidate cfg j).length ≤ cfg.SZ_FILENAME_BUF - 1)
    (hctx : c_str cfg.FILENAME_CONTEXT ≠ [])
    (hsep : ∀ j, j < cfg.N_VEPROMS_ALLOWED → candidate cfg j ≠ c_str cfg.FILENAME_CONTEXT) :
    ∃ name fs1 fs2,
      create cfg fs capacity closedCount = (eRetVal.OK, some name, fs1) ∧
      load cfg fs1 name true = (eRetVal.OK, fs2) ∧
      ActiveStore cfg fs2 name (List.replicate capacity 0) ∧
      get_size cfg fs2 = some capacity ∧
      read_raw cfg fs2 0 capacity = (eRetVal.OK, List.replicate capacity 0) := by
  obtain ⟨j0, hj0, hfree0⟩ := hfree
  obtain ⟨j, _, hj, _, _, hloop⟩ :=
    create_loop_first_free cfg fs cfg.N_VEPROMS_ALLOWED 0 Fid.null
      ⟨j0, Nat.zero_le _, by omega, hfree0⟩
  have hj1 : j < cfg.N_VEPROMS_ALLOWED := by omega
  have hfile : fwrite_wb fs (candidate cfg j) (List.replicate capacity 0) (candidate cfg j)
      = some (List.replicate capacity 0) := by
    simp [fwrite_wb, candidate_c_str]
  obtain ⟨hload, hact⟩ := active_after_load cfg _ (candidate cfg j) _
    (candidate_c_str cfg j) (candidate_ne_nil cfg j) (hfit j hj1) hctx (hsep j hj1) hfile
  refine ⟨candidate cfg j, _, _, ?_, hload, hact, ?_, ?_⟩
  · unfold create; rw [hloop]
  · rw [hact.get_size, List.length_replicate]
  · have hnot : ¬ (0 + capacity) % SIZE_MOD cfg > (List.replicate capacity 0).length := by
      have := Nat.mod_le (0 + capacity) (SIZE_MOD cfg)
      rw [List.length_replicate]; omega
    rw [hact.read_raw, if_neg hnot, List.drop_zero]
    rw [List.take_of_length_le (by rw [List.length_replicate])]

/-- C8, evaluated where the claim fails: the first of three candidate names is
free, `create(8)` returns `OK` with that name and the store holds 8 zero
bytes. `load` of the name returns `OK`, but it has emptied the context record
and left the name in a stream that it never closes: as long as the name has
not reached the record, `get_context` returns the empty string, `get_size`
returns `false` and `read_raw(0, buf, 8)` returns `ContextNotLoaded`. -/
theorem load_leaves_context_unwritten :
    (create cfg3 fsRaw 8 0).1 = eRetVal.OK ∧
      (create cfg3 fsRaw 8 0).2.1 = some (candidate cfg3 0) ∧
      (create cfg3 fsRaw 8 0).2.2 (candidate cfg3 0) = some (List.replicate 8 0) ∧
      (load cfg3 (create cfg3 fsRaw 8 0).2.2 (candidate cfg3 0) false).1 = eRetVal.OK ∧
      get_context cfg3 (load cfg3 (create cfg3 fsRaw 8 0).2.2 (candidate cfg3 0) false).2
        = [] ∧
      get_size cfg3 (load cfg3 (create cfg3 fsRaw 8 0).2.2 (candidate cfg3 0) false).2
        = none ∧
      read_raw cfg3 (load cfg3 (create cfg3 fsRaw 8 0).2.2 (candidate cfg3 0) false).2 0 8
        = (eRetVal.ContextNotLoaded, []) := by
  refine ⟨by decide, by decide, by decide, by decide, by decide, by decide, by decide⟩

/-! ## Scanning a catalogue -/

theorem c_str_eq_nil_iff (l : Bytes) : c_str l = [] ↔ l.headD 0 = 0 := by
  cases l with
  | nil => simp [c_str]
  | cons b t =>
    by_cases hb : b = 0
    · simp [c_str, List.takeWhile_cons, hb]
    · simp [c_str, List.takeWhile_cons, hb]

theorem fread_into_full (hdr got : Bytes) (h : hdr.length ≤ got.length) :
    fread_into hdr got = got := by
  unfold fread_into
  rw [List.drop_of_length_le h, List.append_nil]

theorem hdrAt_length (cfg : Config) (c : Bytes) (pos : Nat)
    (h : pos + sizeofHdr cfg ≤ c.length) : (hdrAt cfg c pos).length = sizeofHdr cfg := by
  unfold hdrAt
  rw [List.length_take, List.length_drop]
  omega

section Scan

variable {cfg : Config} {fs : FS} {name c : Bytes}

theorem ActiveStore.read_hdr (hact : ActiveStore cfg fs name c) (pos : Nat)
    (h : pos + sizeofHdr cfg ≤ c.length) :
    Veprom.read_raw cfg fs pos (sizeofHdr cfg) = (eRetVal.OK, hdrAt cfg c pos) := by
  have hle : ¬ (pos + sizeofHdr cfg) % SIZE_MOD cfg > c.length := by
    have := Nat.mod_le (pos + sizeofHdr cfg) (SIZE_MOD cfg)
    omega
  rw [hact.read_raw, if_neg hle]
  rfl

theorem ActiveStore.read_hdr_fail (hact : ActiveStore cfg fs name c) (pos : Nat)
    (h1 : c.length < pos + sizeofHdr cfg) (h2 : pos + sizeofHdr cfg < SIZE_MOD cfg) :
    Veprom.read_raw cfg fs pos (sizeofHdr cfg) = (eRetVal.ReadOutOfBounds, []) := by
  rw [hact.read_raw, Nat.mod_eq_of_lt h2, if_pos h1]

theorem ActiveStore.free_step (hact : ActiveStore cfg fs name c) (fuel pos : Nat)
    (hdr : Bytes) (hlen : hdr.length = sizeofHdr cfg)
    (h : pos + sizeofHdr cfg ≤ c.length) :
    get_free_pos_loop cfg fs (fuel + 1) pos hdr =
      if (hdrAt cfg c pos).headD 0 = 0 then some pos
      else get_free_pos_loop cfg fs fuel
        ((pos + (sizeofHdr cfg + hdrLength cfg (hdrAt cfg c pos))) % SIZE_MOD cfg)
        (hdrAt cfg c pos) := by
  rw [get_free_pos_loop]
  simp only [hact.read_hdr pos h, ne_eq, not_true_eq_false, if_false]
  rw [fread_into_full hdr _ (by rw [hdrAt_length cfg c pos h, hlen])]

theorem ActiveStore.free_fail (hact : ActiveStore cfg fs name c) (fuel pos : Nat)
    (hdr : Bytes)
    (h1 : c.length < pos + sizeofHdr cfg) (h2 : pos + sizeofHdr cfg < SIZE_MOD cfg) :
    get_free_pos_loop cfg fs (fuel + 1) pos hdr = some (SIZE_MOD cfg - 1) := by
  rw [get_free_pos_loop]
  simp [hact.read_hdr_fail pos h1 h2]

theorem ActiveStore.list_step (hact : ActiveStore cfg fs name c) (fuel pos : Nat)
    (hdr : Bytes) (acc : List Bytes) (hlen : hdr.length = sizeofHdr cfg)
    (h : pos + sizeofHdr cfg ≤ c.length) :
    list_loop cfg fs (fuel + 1) pos hdr acc =
      if (hdrAt cfg c pos).headD 0 = 0 then some acc
      else list_loop cfg fs fuel
        ((pos + sizeofHdr cfg + hdrLength cfg (hdrAt cfg c pos)) % SIZE_MOD cfg)
        (hdrAt cfg c pos) (acc ++ [hdrFilename (hdrAt cfg c pos)]) := by
  rw [list_loop]
  simp only [hact.read_hdr pos h, ne_eq, not_true_eq_false, if_false]
  rw [fread_into_full hdr _ (by rw [hdrAt_length cfg c pos h, hlen])]

theorem ActiveStore.list_fail (hact : ActiveStore cfg fs name c) (fuel pos : Nat)
    (hdr : Bytes) (acc : List Bytes)
    (h1 : c.length < pos + sizeofHdr cfg) (h2 : pos + sizeofHdr cfg < SIZE_MOD cfg) :
    list_loop cfg fs (fuel + 1) pos hdr acc = some acc := by
  rw [list_loop]
  simp [hact.read_hdr_fail pos h1 h2]

theorem ActiveStore.read_step (hact : ActiveStore cfg fs name c) (filename : Bytes)
    (fuel pos : Nat) (hdr : Bytes) (hlen : hdr.length = sizeofHdr cfg)
    (h : pos + sizeofHdr cfg ≤ c.length) :
    read_loop cfg fs filename (fuel + 1) pos hdr =
      if hdrFilename (hdrAt cfg c pos) = c_str filename then
        some (some ((pos + sizeofHdr cfg) % SIZE_MOD cfg, hdrAt cfg c pos))
      else read_loop cfg fs filename fuel
        (((pos + sizeofHdr cfg) % SIZE_MOD cfg + hdrLength cfg (hdrAt cfg c pos))
          % SIZE_MOD cfg)
        (hdrAt cfg c pos) := by
  rw [read_loop]
  simp only [hact.read_hdr pos h, ne_eq, not_true_eq_false, if_false]
  rw [fread_into_full hdr _ (by rw [hdrAt_length cfg c pos h, hlen])]

theorem ActiveStore.read_fail (hact : ActiveStore cfg fs name c) (filename : Bytes)
    (fuel pos : Nat) (hdr : Bytes)
    (h1 : c.length < pos + sizeofHdr cfg) (h2 : pos + sizeofHdr cfg < SIZE_MOD cfg) :
    read_loop cfg fs filename (fuel + 1) pos hdr = some none := by
  rw [read_loop]
  simp [hact.read_hdr_fail pos h1 h2]

end Scan

theorem take_of_take_eq {c c1 : Bytes} {p m : Nat} (h : c1.take p = c.take p)
    (hm : m ≤ p) : c1.take m = c.take m := by
  have h1 := congrArg (List.take m) h
  rw [List.take_take, List.take_take, Nat.min_eq_left hm] at h1
  exact h1

theorem slice_congr {c c1 : Bytes} {p a n : Nat} (h : c1.take p = c.take p)
    (ha : a + n ≤ p) : (c1.drop a).take n = (c.drop a).take n := by
  rw [List.take_drop, List.take_drop, take_of_take_eq h ha]

theorem Catalog.le {cfg : Config} {c : Bytes} :
    ∀ {es : List (Bytes × Bytes)} {pos p : Nat}, Catalog cfg c pos es p → pos ≤ p := by
  intro es
  induction es with
  | nil => intro pos p h; exact Nat.le_of_eq h
  | cons e es ih =>
    intro pos p h
    have := ih h.2.2.2.2.2
    omega

theorem Catalog.end_le {cfg : Config} {c : Bytes} :
    ∀ {es : List (Bytes × Bytes)} {pos p : Nat}, Catalog cfg c pos es p →
      pos ≤ c.length → p ≤ c.length := by
  intro es
  induction es with
  | nil => intro pos p h hp; have : pos = p := h; omega
  | cons e es ih =>
    intro pos p h _
    exact ih h.2.2.2.2.2 h.2.2.2.2.1

theorem Catalog.append {cfg : Config} {c : Bytes} :
    ∀ {es1 es2 : List (Bytes × Bytes)} {pos q p : Nat},
      Catalog cfg c pos es1 q → Catalog cfg c q es2 p → Catalog cfg c pos (es1 ++ es2) p := by
  intro es1
  induction es1 with
  | nil => intro es2 pos q p h1 h2; have : pos = q := h1; subst this; exact h2
  | cons e es ih =>
    intro es2 pos q p h1 h2
    obtain ⟨a1, a2, a3, a4, a5, a6⟩ := h1
    exact ⟨a1, a2, a3, a4, a5, ih a6 h2⟩

theorem Catalog.split {cfg : Config} {c : Bytes} :
    ∀ {es1 es2 : List (Bytes × Bytes)} {pos p : Nat},
      Catalog cfg c pos (es1 ++ es2) p →
      ∃ q, Catalog cfg c pos es1 q ∧ Catalog cfg c q es2 p := by
  intro es1
  induction es1 with
  | nil => intro es2 pos p h; exact ⟨pos, rfl, h⟩
  | cons e es ih =>
    intro es2 pos p h
    obtain ⟨a1, a2, a3, a4, a5, a6⟩ := h
    obtain ⟨q, h1, h2⟩ := ih a6
    exact ⟨q, ⟨a1, a2, a3, a4, a5, h1⟩, h2⟩

theorem Catalog.frame {cfg : Config} {c c1 : Bytes} :
    ∀ {es : List (Bytes × Bytes)} {pos p : Nat},
      Catalog cfg c pos es p → c1.take p = c.take p → c.length ≤ c1.length →
      Catalog cfg c1 pos es p := by
  intro es
  induction es with
  | nil => intro pos p h _ _; exact h
  | cons e es ih =>
    intro pos p h htake hlen
    obtain ⟨a1, a2, a3, a4, a5, a6⟩ := h
    have hle := Catalog.le a6
    have hh : hdrAt cfg c1 pos = hdrAt cfg c pos :=
      slice_congr htake (by omega)
    refine ⟨a1, ?_, ?_, ?_, by omega, ih a6 htake hlen⟩
    · rw [hh]; exact a2
    · rw [hh]; exact a3
    · rw [slice_congr htake (by omega)]; exact a4

section ScanCatalog

variable {cfg : Config} {fs : FS} {name c : Bytes}

theorem free_scan (hact : ActiveStore cfg fs name c) (hM : c.length < SIZE_MOD cfg) :
    ∀ (es : List (Bytes × Bytes)) (pos p fuel : Nat) (hdr : Bytes),
      hdr.length = sizeofHdr cfg → Catalog cfg c pos es p →
      ∃ hdr1, hdr1.length = sizeofHdr cfg ∧
        get_free_pos_loop cfg fs (es.length + fuel) pos hdr
          = get_free_pos_loop cfg fs fuel p hdr1 := by
  intro es
  induction es with
  | nil =>
    intro pos p fuel hdr hlen h
    have : pos = p := h
    subst this
    exact ⟨hdr, hlen, by simp⟩
  | cons e es ih =>
    intro pos p fuel hdr hlen h
    obtain ⟨a1, a2, a3, a4, a5, a6⟩ := h
    have hpos : pos + sizeofHdr cfg ≤ c.length := by omega
    have hne : ¬ (hdrAt cfg c pos).headD 0 = 0 := by
      rw [← c_str_eq_nil_iff]
      intro h0
      exact a1 (a2 ▸ h0)
    obtain ⟨hdr1, h1, h2⟩ := ih (pos + sizeofHdr cfg + e.2.length) p fuel (hdrAt cfg c pos)
      (hdrAt_length cfg c pos hpos) a6
    refine ⟨hdr1, h1, ?_⟩
    rw [List.length_cons, Nat.add_right_comm, hact.free_step _ _ _ hlen hpos, if_neg hne, a3,
      ← Nat.add_assoc, Nat.mod_eq_of_lt (by omega), h2]

theorem free_scan_short (hact : ActiveStore cfg fs name c) (hM : c.length < SIZE_MOD cfg) :
    ∀ (es : List (Bytes × Bytes)) (pos p fuel : Nat) (hdr : Bytes),
      hdr.length = sizeofHdr cfg → Catalog cfg c pos es p → fuel ≤ es.length →
      get_free_pos_loop cfg fs fuel pos hdr = none := by
  intro es
  induction es with
  | nil =>
    intro pos p fuel hdr _ _ hf
    have : fuel = 0 := by simpa using hf
    subst this
    rfl
  | cons e es ih =>
    intro pos p fuel hdr hlen h hf
    cases fuel with
    | zero => rfl
    | succ f =>
      obtain ⟨a1, a2, a3, a4, a5, a6⟩ := h
      have hpos : pos + sizeofHdr cfg ≤ c.length := by omega
      have hne : ¬ (hdrAt cfg c pos).headD 0 = 0 := by
        rw [← c_str_eq_nil_iff]
        intro h0
        exact a1 (a2 ▸ h0)
      rw [hact.free_step _ _ _ hlen hpos, if_neg hne, a3, ← Nat.add_assoc,
        Nat.mod_eq_of_lt (by omega)]
      exact ih _ p f _ (hdrAt_length cfg c pos hpos) a6 (by simpa using hf)

theorem list_scan (hact : ActiveStore cfg fs name c) (hM : c.length < SIZE_MOD cfg) :
    ∀ (es : List (Bytes × Bytes)) (pos p fuel : Nat) (hdr : Bytes) (acc : List Bytes),
      hdr.length = sizeofHdr cfg → Catalog cfg c pos es p →
      ∃ hdr1, hdr1.length = sizeofHdr cfg ∧
        list_loop cfg fs (es.length + fuel) pos hdr acc
          = list_loop cfg fs fuel p hdr1 (acc ++ es.map Prod.fst) := by
  intro es
  induction es with
  | nil =>
    intro pos p fuel hdr acc hlen h
    have : pos = p := h
    subst this
    exact ⟨hdr, hlen, by simp⟩
  | cons e es ih =>
    intro pos p fuel hdr acc hlen h
    obtain ⟨a1, a2, a3, a4, a5, a6⟩ := h
    have hpos : pos + sizeofHdr cfg ≤ c.length := by omega
    have hne : ¬ (hdrAt cfg c pos).headD 0 = 0 := by
      rw [← c_str_eq_nil_iff]
      intro h0
      exact a1 (a2 ▸ h0)
    obtain ⟨hdr1, h1, h2⟩ := ih (pos + sizeofHdr cfg + e.2.length) p fuel (hdrAt cfg c pos)
      (acc ++ [e.1]) (hdrAt_length cfg c pos hpos) a6
    refine ⟨hdr1, h1, ?_⟩
    rw [List.length_cons, Nat.add_right_comm, hact.list_step _ _ _ _ hlen hpos, if_neg hne, a3,
      a2, Nat.mod_eq_of_lt (by omega), h2]
    simp

theorem read_scan (hact : ActiveStore cfg fs name c) (hM : c.length < SIZE_MOD cfg)
    (filename : Bytes) :
    ∀ (es : List (Bytes × Bytes)) (pos p fuel : Nat) (hdr : Bytes),
      hdr.length = sizeofHdr cfg → Catalog cfg c pos es p →
      c_str filename ∉ es.map Prod.fst →
      ∃ hdr1, hdr1.length = sizeofHdr cfg ∧
        read_loop cfg fs filename (es.length + fuel) pos hdr
          = read_loop cfg fs filename fuel p hdr1 := by
  intro es
  induction es with
  | nil =>
    intro pos p fuel hdr hlen h _
    have : pos = p := h
    subst this
    exact ⟨hdr, hlen, by simp⟩
  | cons e es ih =>
    intro pos p fuel hdr hlen h hnot
    obtain ⟨a1, a2, a3, a4, a5, a6⟩ := h
    have hpos : pos + sizeofHdr cfg ≤ c.length := by omega
    have hne : ¬ hdrFilename (hdrAt cfg c pos) = c_str filename := by
      rw [a2]
      intro h0
      exact hnot (by simp [h0])
    obtain ⟨hdr1, h1, h2⟩ := ih (pos + sizeofHdr cfg + e.2.length) p fuel (hdrAt cfg c pos)
      (hdrAt_length cfg c pos hpos) a6 (fun hm => hnot (by simp [hm]))
    refine ⟨hdr1, h1, ?_⟩
    rw [List.length_cons, Nat.add_right_comm, hact.read_step _ _ _ _ hlen hpos, if_neg hne, a3,
      Nat.mod_eq_of_lt (show pos + sizeofHdr cfg < SIZE_MOD cfg by omega),
      Nat.mod_eq_of_lt (show pos + sizeofHdr cfg + e.2.length < SIZE_MOD cfg by omega), h2]

end ScanCatalog

/-! ## Headers -/

theorem c_str_length_le (s : Bytes) : (c_str s).length ≤ s.length :=
  (List.takeWhile_prefix _).length_le

theorem c_str_append_zero (s t : Bytes) (hs : ∀ b ∈ s, (b != 0) = true) :
    c_str (s ++ 0 :: t) = s := by
  unfold c_str
  rw [List.takeWhile_append_of_pos hs]
  simp [List.takeWhile_cons]

theorem c_str_no_zero (s : Bytes) : ∀ b ∈ c_str s, (b != 0) = true := by
  intro b hb
  exact @List.mem_takeWhile_imp _ (fun b => b != 0) s b hb

theorem c_str_of_no_zero (s : Bytes) (hs : 0 ∉ s) : c_str s = s := by
  unfold c_str
  rw [List.takeWhile_eq_self_iff]
  intro b hb
  have : b ≠ 0 := fun h => hs (h ▸ hb)
  simpa using this

theorem leEnc_length : ∀ (w n : Nat), (leEnc w n).length = w := by
  intro w
  induction w with
  | zero => intro n; rfl
  | succ w ih => intro n; simp [leEnc, ih]

theorem leDec_leEnc : ∀ (w n : Nat), leDec (leEnc w n) = n % 256 ^ w := by
  intro w
  induction w with
  | zero => intro n; simp [leEnc, leDec, Nat.mod_one]
  | succ w ih =>
    intro n
    simp only [leEnc, leDec, ih, Nat.mod_mod]
    rw [Nat.pow_succ', Nat.mod_mul]

theorem mkHdr_length (cfg : Config) (filename : Bytes) (n : Nat)
    (h : (c_str filename).length ≤ cfg.SZ_FILENAME_BUF) :
    (mkHdr cfg filename n).length = sizeofHdr cfg := by
  unfold mkHdr sizeofHdr
  simp only [List.length_append, List.length_replicate, leEnc_length]
  omega

theorem hdrFilename_mkHdr (cfg : Config) (filename : Bytes) (n : Nat)
    (h : (c_str filename).length < cfg.SZ_FILENAME_BUF) :
    hdrFilename (mkHdr cfg filename n) = c_str filename := by
  unfold mkHdr hdrFilename
  obtain ⟨k, hk⟩ : ∃ k, cfg.SZ_FILENAME_BUF - (c_str filename).length = k + 1 :=
    ⟨cfg.SZ_FILENAME_BUF - (c_str filename).length - 1, by omega⟩
  rw [hk, List.replicate_succ, List.append_assoc, List.cons_append]
  exact c_str_append_zero _ _ (c_str_no_zero filename)

theorem hdrLength_mkHdr (cfg : Config) (filename : Bytes) (n : Nat)
    (h : (c_str filename).length ≤ cfg.SZ_FILENAME_BUF) :
    hdrLength cfg (mkHdr cfg filename n) = n % SIZE_MOD cfg := by
  unfold mkHdr hdrLength SIZE_MOD
  rw [List.drop_left' (by simp only [List.length_append, List.length_replicate]; omega),
    List.take_of_length_le (by rw [leEnc_length]), leDec_leEnc]

/-! ## The effect of `write` on the store -/

theorem memcpy_take (cfg : Config) (buf : Bytes) (addr m : Nat) (data : Bytes)
    (h : addr + data.length ≤ buf.length) (hm : m ≤ addr) :
    (memcpy cfg buf addr data).take m = buf.take m := by
  rw [memcpy_inside cfg buf addr data h, List.append_assoc,
    List.take_append_of_le_length (by rw [List.length_take]; omega), List.take_take,
    Nat.min_eq_left hm]

theorem memcpy_drop (cfg : Config) (buf : Bytes) (addr m : Nat) (data : Bytes)
    (h : addr + data.length ≤ buf.length) (hm : addr + data.length ≤ m) :
    (memcpy cfg buf addr data).drop m = buf.drop m := by
  rw [memcpy_inside cfg buf addr data h]
  have hl : (buf.take addr ++ data).length = addr + data.length := by
    rw [List.length_append, List.length_take]; omega
  obtain ⟨k, rfl⟩ : ∃ k, m = (buf.take addr ++ data).length + k := ⟨m - (addr + data.length), by omega⟩
  rw [List.drop_append, List.drop_drop, hl]

section Written

variable {cfg : Config} {c : Bytes} {p : Nat} {filename data : Bytes}

theorem written_length : (written cfg c p filename data).length = c.length := by
  unfold written; rw [memcpy_length, memcpy_length]

theorem written_take (hname : filename.length < cfg.SZ_FILENAME_BUF)
    (hfit : p + sizeofHdr cfg + data.length ≤ c.length) :
    (written cfg c p filename data).take p = c.take p := by
  have hk := c_str_length_le filename
  have hl := mkHdr_length cfg filename (data.length % SIZE_MOD cfg) (by omega)
  unfold written
  rw [memcpy_take _ _ _ _ _ (by rw [memcpy_length]; omega) (by omega),
    memcpy_take _ _ _ _ _ (by omega) (Nat.le_refl p)]

theorem written_drop (hname : filename.length < cfg.SZ_FILENAME_BUF)
    (hfit : p + sizeofHdr cfg + data.length ≤ c.length) :
    (written cfg c p filename data).drop (p + sizeofHdr cfg + data.length)
      = c.drop (p + sizeofHdr cfg + data.length) := by
  have hk := c_str_length_le filename
  have hl := mkHdr_length cfg filename (data.length % SIZE_MOD cfg) (by omega)
  unfold written
  rw [memcpy_drop _ _ _ _ _ (by rw [memcpy_length]; omega) (Nat.le_refl _),
    memcpy_drop _ _ _ _ _ (by omega) (by omega)]

theorem written_hdr (hname : filename.length < cfg.SZ_FILENAME_BUF)
    (hfit : p + sizeofHdr cfg + data.length ≤ c.length) :
    hdrAt cfg (written cfg c p filename data) p
      = mkHdr cfg filename (data.length % SIZE_MOD cfg) := by
  have hk := c_str_length_le filename
  have hl := mkHdr_length cfg filename (data.length % SIZE_MOD cfg) (by omega)
  have h1 : (written cfg c p filename data).take (p + sizeofHdr cfg)
      = (memcpy cfg c p (mkHdr cfg filename (data.length % SIZE_MOD cfg))).take
          (p + sizeofHdr cfg) := by
    unfold written
    rw [memcpy_take _ _ _ _ _ (by rw [memcpy_length]; omega) (Nat.le_refl _)]
  unfold hdrAt
  rw [slice_congr h1 (Nat.le_refl _)]
  have h2 := read_memcpy cfg c p (mkHdr cfg filename (data.length % SIZE_MOD cfg)) (by omega)
  rw [hl] at h2
  exact h2

theorem written_data (hfit : p + sizeofHdr cfg + data.length ≤ c.length) :
    ((written cfg c p filename data).drop (p + sizeofHdr cfg)).take data.length = data := by
  unfold written
  exact read_memcpy _ _ _ _ (by rw [memcpy_length]; omega)

end Written

section WriteRead

variable {cfg : Config} {fs : FS} {name c : Bytes}

theorem free_pos_of_catalog (hact : ActiveStore cfg fs name c) (hM : c.length < SIZE_MOD cfg)
    {es : List (Bytes × Bytes)} {p fuel : Nat} (hcat : Catalog cfg c 0 es p)
    (hp : p + sizeofHdr cfg ≤ c.length) (hempty : (hdrAt cfg c p).headD 0 = 0)
    (hfuel : es.length < fuel) :
    get_free_pos cfg fuel fs = some p := by
  obtain ⟨k, rfl⟩ : ∃ k, fuel = es.length + (k + 1) := ⟨fuel - es.length - 1, by omega⟩
  obtain ⟨hdr1, h1, h2⟩ := free_scan hact hM es 0 p (k + 1) (zeroHdr cfg)
    (by simp [zeroHdr]) hcat
  unfold get_free_pos
  rw [h2, hact.free_step _ _ _ h1 hp, if_pos hempty]

theorem write_at_free (hact : ActiveStore cfg fs name c) (hM : c.length < SIZE_MOD cfg)
    {p fuel : Nat} {filename data : Bytes}
    (hname : filename.length < cfg.SZ_FILENAME_BUF)
    (hfree : get_free_pos cfg fuel fs = some p)
    (hfit : p + sizeofHdr cfg + data.length ≤ c.length) :
    ∃ fs1, write cfg fuel fs filename data = some (eRetVal.OK, fs1) ∧
      ActiveStore cfg fs1 name (written cfg c p filename data) := by
  have hk := c_str_length_le filename
  have hl := mkHdr_length cfg filename (data.length % SIZE_MOD cfg) (by omega)
  have hH : 1 ≤ sizeofHdr cfg := by unfold sizeofHdr; omega
  have hmod : (p + sizeofHdr cfg) % SIZE_MOD cfg = p + sizeofHdr cfg :=
    Nat.mod_eq_of_lt (by omega)
  have h1 : write_raw cfg fs p (mkHdr cfg filename (data.length % SIZE_MOD cfg))
      = (eRetVal.OK, fwrite_wb fs name
          (memcpy cfg c p (mkHdr cfg filename (data.length % SIZE_MOD cfg)))) := by
    rw [hact.write_raw, hl, hmod, if_neg (by omega)]
  have hact1 := hact.update (memcpy cfg c p (mkHdr cfg filename (data.length % SIZE_MOD cfg)))
  have h2 : write_raw cfg
      (fwrite_wb fs name (memcpy cfg c p (mkHdr cfg filename (data.length % SIZE_MOD cfg))))
      (p + sizeofHdr cfg) data
      = (eRetVal.OK, fwrite_wb
          (fwrite_wb fs name (memcpy cfg c p (mkHdr cfg filename (data.length % SIZE_MOD cfg))))
          name (written cfg c p filename data)) := by
    rw [hact1.write_raw, memcpy_length,
      Nat.mod_eq_of_lt (show p + sizeofHdr cfg + data.length < SIZE_MOD cfg by omega),
      if_neg (by omega)]
    rfl
  refine ⟨_, ?_, hact1.update (written cfg c p filename data)⟩
  unfold write
  rw [if_neg (by omega), hfree]
  simp only [h1, hmod, h2]
  rw [if_neg (by omega)]
  simp

theorem read_at (hact : ActiveStore cfg fs name c) (hM : c.length < SIZE_MOD cfg)
    {es : List (Bytes × Bytes)} {p fuel : Nat} {filename data : Bytes}
    (hcat : Catalog cfg c 0 es p)
    (hnew : c_str filename ∉ es.map Prod.fst)
    (hfit : p + sizeofHdr cfg + data.length ≤ c.length)
    (hfn : hdrFilename (hdrAt cfg c p) = c_str filename)
    (hlen : hdrLength cfg (hdrAt cfg c p) = data.length)
    (hdata : (c.drop (p + sizeofHdr cfg)).take data.length = data)
    (hfuel : es.length < fuel) :
    read cfg fuel fs filename = some (eRetVal.OK, data.length, data) := by
  obtain ⟨k, rfl⟩ : ∃ k, fuel = es.length + (k + 1) := ⟨fuel - es.length - 1, by omega⟩
  obtain ⟨hdr1, h1, h2⟩ := read_scan hact hM filename es 0 p (k + 1) (zeroHdr cfg)
    (by simp [zeroHdr]) hcat hnew
  have hle : ¬ (p + sizeofHdr cfg + data.length) % SIZE_MOD cfg > c.length := by
    rw [Nat.mod_eq_of_lt (by omega)]; omega
  unfold read
  rw [hact.get_size]
  simp only [h2, hact.read_step _ _ _ _ h1 (show p + sizeofHdr cfg ≤ c.length by omega),
    if_pos hfn, Nat.mod_eq_of_lt (show p + sizeofHdr cfg < SIZE_MOD cfg by omega), hlen,
    hact.read_raw, if_neg hle, hdata]
  simp

end WriteRead

/-- C3, amended. On an active store whose catalogue `es` is laid out in
increasing order up to the empty header at `p`, for a name shorter than the
name buffer that no entry of `es` carries, and data with
`p + header size + len(data) <= C`: `get_free_pos()` returns `p`, `write`
returns `OK`, and the `read` of that name that follows returns `OK` with
exactly `data`. -/
theorem blob_round_trip (cfg : Config) (fs : FS) (name c : Bytes)
    (es : List (Bytes × Bytes)) (p fuel : Nat) (filename data : Bytes)
    (hact : ActiveStore cfg fs name c) (hM : c.length < SIZE_MOD cfg)
    (hname : filename.length < cfg.SZ_FILENAME_BUF)
    (hcat : Catalog cfg c 0 es p)
    (hempty : (hdrAt cfg c p).headD 0 = 0)
    (hfit : p + sizeofHdr cfg + data.length ≤ c.length)
    (hnew : c_str filename ∉ es.map Prod.fst)
    (hfuel : es.length < fuel) :
    get_free_pos cfg fuel fs = some p ∧
      ∃ fs1, write cfg fuel fs filename data = some (eRetVal.OK, fs1) ∧
        read cfg fuel fs1 filename = some (eRetVal.OK, data.length, data) := by
  have hk := c_str_length_le filename
  have hfree := free_pos_of_catalog hact hM hcat (by omega) hempty hfuel
  obtain ⟨fs1, hw, hact1⟩ := write_at_free hact hM hname hfree hfit
  refine ⟨hfree, fs1, hw, ?_⟩
  have hcat1 : Catalog cfg (written cfg c p filename data) 0 es p :=
    hcat.frame (written_take hname hfit) (by rw [written_length])
  have hmodl : data.length % SIZE_MOD cfg = data.length := Nat.mod_eq_of_lt (by omega)
  refine read_at hact1 (by rw [written_length]; exact hM) hcat1 hnew
    (by rw [written_length]; exact hfit) ?_ ?_ (written_data hfit) hfuel
  · rw [written_hdr hname hfit, hdrFilename_mkHdr cfg filename _ (by omega)]
  · rw [written_hdr hname hfit, hdrLength_mkHdr cfg filename _ (by omega), hmodl, hmodl]


/-- Witness of C3 as amended: the store holds the entry `a`, the new entry `b`
with data `[4, 5]` is written and read back. -/
theorem blob_round_trip_witness :
    ActiveStore cfg12 fsA [118] contentA ∧ Catalog cfg12 contentA 0 [([97], [1])] 13 ∧
      get_free_pos cfg12 5 fsA = some 13 ∧
      ∃ fs1, write cfg12 5 fsA [98] [4, 5] = some (eRetVal.OK, fs1) ∧
        read cfg12 5 fs1 [98] = some (eRetVal.OK, [4, 5].length, [4, 5]) :=
  ⟨by unfold ActiveStore; decide, by simp only [Catalog]; decide,
    blob_round_trip cfg12 fsA [118] contentA [([97], [1])] 13 5 [98] [4, 5]
      (by unfold ActiveStore; decide) (by decide) (by decide)
      (by simp only [Catalog]; decide) (by decide) (by decide) (by decide) (by decide)⟩

/-- C3 as stated fails when the name is already in the catalogue: after
`write("a", [1])` on a fresh 64-byte store the free position is 13 and
`write("a", [2])` fits and returns `OK`, yet `read("a")` returns `[1]`. -/
theorem blob_round_trip_duplicate :
    (write cfg12 5 (fsZero 64) [97] [1]).bind (fun r => r.2 [118]) = some contentA ∧
      ActiveStore cfg12 fsA [118] contentA ∧
      [97].length < cfg12.SZ_FILENAME_BUF ∧
      get_free_pos cfg12 5 fsA = some 13 ∧ 13 ≠ SIZE_MOD cfg12 - 1 ∧
      13 + sizeofHdr cfg12 + [2].length ≤ contentA.length ∧
      (write cfg12 5 fsA [97] [2]).map Prod.fst = some eRetVal.OK ∧
      (write cfg12 5 fsA [97] [2]).bind (fun r => read cfg12 5 r.2 [97])
        = some (eRetVal.OK, 1, [1]) ∧
      (write cfg12 5 fsA [97] [2]).bind (fun r => read cfg12 5 r.2 [97])
        ≠ some (eRetVal.OK, [2].length, [2]) := by
  refine ⟨by decide, by unfold ActiveStore; decide, by decide, by decide, by decide,
    by decide, by decide, by decide, by decide⟩

/-! ## Catalogues built by `write` on a fresh store -/

theorem leDec_replicate_zero : ∀ n : Nat, leDec (List.replicate n 0) = 0 := by
  intro n
  induction n with
  | zero => rfl
  | succ n ih => simp [List.replicate_succ, leDec, ih]

theorem hdrAt_zero_tail (cfg : Config) (c : Bytes) (p : Nat)
    (hz : c.drop p = List.replicate (c.length - p) 0)
    (hp : p + sizeofHdr cfg ≤ c.length) :
    hdrAt cfg c p = List.replicate (sizeofHdr cfg) 0 := by
  unfold hdrAt
  rw [hz, List.take_replicate, Nat.min_eq_left (by omega)]

theorem drop_zero_tail (c : Bytes) (p n : Nat)
    (hz : c.drop p = List.replicate (c.length - p) 0) :
    c.drop (p + n) = List.replicate (c.length - (p + n)) 0 := by
  rw [← List.drop_drop, hz, List.drop_replicate]
  congr 1
  omega

theorem hdrFilename_zero (n : Nat) : hdrFilename (List.replicate n 0) = [] := by
  unfold hdrFilename
  rw [c_str_eq_nil_iff]
  cases n <;> simp [List.replicate_succ]

theorem hdrLength_zero (cfg : Config) :
    hdrLength cfg (List.replicate (sizeofHdr cfg) 0) = 0 := by
  unfold hdrLength
  rw [List.drop_replicate, List.take_replicate, leDec_replicate_zero]

section Fresh

variable {cfg : Config} {fs : FS} {name c : Bytes}

theorem write_data_rejected (hact : ActiveStore cfg fs name c)
    {p fuel : Nat} {filename data : Bytes}
    (hname : filename.length < cfg.SZ_FILENAME_BUF)
    (hfree : get_free_pos cfg fuel fs = some p)
    (hp : p + sizeofHdr cfg ≤ c.length)
    (hM : p + sizeofHdr cfg + data.length < SIZE_MOD cfg)
    (hbig : c.length < p + sizeofHdr cfg + data.length) :
    write cfg fuel fs filename data = some (eRetVal.WriteOutOfBounds,
      fwrite_wb fs name (memcpy cfg c p (mkHdr cfg filename (data.length % SIZE_MOD cfg)))) := by
  have hk := c_str_length_le filename
  have hl := mkHdr_length cfg filename (data.length % SIZE_MOD cfg) (by omega)
  have hH : 1 ≤ sizeofHdr cfg := by unfold sizeofHdr; omega
  have hmod : (p + sizeofHdr cfg) % SIZE_MOD cfg = p + sizeofHdr cfg :=
    Nat.mod_eq_of_lt (by omega)
  have h1 : write_raw cfg fs p (mkHdr cfg filename (data.length % SIZE_MOD cfg))
      = (eRetVal.OK, fwrite_wb fs name
          (memcpy cfg c p (mkHdr cfg filename (data.length % SIZE_MOD cfg)))) := by
    rw [hact.write_raw, hl, hmod, if_neg (by omega)]
  have hact1 := hact.update (memcpy cfg c p (mkHdr cfg filename (data.length % SIZE_MOD cfg)))
  have h2 : write_raw cfg
      (fwrite_wb fs name (memcpy cfg c p (mkHdr cfg filename (data.length % SIZE_MOD cfg))))
      (p + sizeofHdr cfg) data
      = (eRetVal.WriteOutOfBounds,
          fwrite_wb fs name (memcpy cfg c p (mkHdr cfg filename (data.length % SIZE_MOD cfg)))) := by
    rw [hact1.write_raw, memcpy_length, Nat.mod_eq_of_lt hM, if_pos (by omega)]
  unfold write
  rw [if_neg (by omega), hfree]
  simp only [h1, hmod, h2]
  rw [if_neg (by omega)]
  simp

theorem free_pos_packed (hact : ActiveStore cfg fs name c)
    (hM : c.length + sizeofHdr cfg < SIZE_MOD cfg)
    {es : List (Bytes × Bytes)} {p fuel : Nat} (hcat : Catalog cfg c 0 es p)
    (hp : p ≤ c.length) (hz : c.drop p = List.replicate (c.length - p) 0) :
    get_free_pos cfg fuel fs =
      if fuel ≤ es.length then none
      else if p + sizeofHdr cfg ≤ c.length then some p else some (SIZE_MOD cfg - 1) := by
  by_cases hf : fuel ≤ es.length
  · rw [if_pos hf]
    exact free_scan_short hact (by omega) es 0 p fuel (zeroHdr cfg) (by simp [zeroHdr]) hcat hf
  · rw [if_neg hf]
    by_cases hfit : p + sizeofHdr cfg ≤ c.length
    · rw [if_pos hfit]
      refine free_pos_of_catalog hact (by omega) hcat hfit ?_ (by omega)
      rw [hdrAt_zero_tail cfg c p hz hfit]
      cases sizeofHdr cfg <;> simp [List.replicate_succ]
    · rw [if_neg hfit]
      obtain ⟨k, rfl⟩ : ∃ k, fuel = es.length + (k + 1) := ⟨fuel - es.length - 1, by omega⟩
      obtain ⟨hdr1, _, h2⟩ := free_scan hact (by omega) es 0 p (k + 1) (zeroHdr cfg)
        (by simp [zeroHdr]) hcat
      unfold get_free_pos
      rw [h2, hact.free_fail _ _ _ (by omega) (by omega)]

theorem write_packed_at (hact : ActiveStore cfg fs name c)
    (hM : c.length + sizeofHdr cfg < SIZE_MOD cfg)
    {es : List (Bytes × Bytes)} {p fuel : Nat} {e : Bytes × Bytes} {r : eRetVal × FS}
    (hcat : Catalog cfg c 0 es p) (hp : p ≤ c.length)
    (hz : c.drop p = List.replicate (c.length - p) 0)
    (hne : e.1 ≠ []) (hnz : 0 ∉ e.1) (hsz : e.2.length + c.length < SIZE_MOD cfg)
    (hw : write cfg fuel fs e.1 e.2 = some r) (hok : r.1 = eRetVal.OK) :
    e.1.length < cfg.SZ_FILENAME_BUF ∧ p + sizeofHdr cfg + e.2.length ≤ c.length ∧
      ActiveStore cfg r.2 name (written cfg c p e.1 e.2) ∧
      Catalog cfg (written cfg c p e.1 e.2) 0 (es ++ [e]) (p + sizeofHdr cfg + e.2.length) ∧
      (written cfg c p e.1 e.2).drop (p + sizeofHdr cfg + e.2.length)
        = List.replicate (c.length - (p + sizeofHdr cfg + e.2.length)) 0 := by
  have hlen1 : 1 ≤ e.1.length := by
    cases h : e.1 with
    | nil => exact absurd h hne
    | cons b t => simp
  have hname : e.1.length < cfg.SZ_FILENAME_BUF := by
    by_contra hcon
    have hlong : e.1.length > cfg.SZ_FILENAME_BUF - 1 := by omega
    unfold write at hw
    rw [if_pos hlong] at hw
    have := Option.some.inj hw
    rw [← this] at hok
    cases hok
  have hfp : get_free_pos cfg fuel fs =
      if fuel ≤ es.length then none
      else if p + sizeofHdr cfg ≤ c.length then some p else some (SIZE_MOD cfg - 1) :=
    free_pos_packed hact hM hcat hp hz
  by_cases hf : fuel ≤ es.length
  · rw [if_pos hf] at hfp
    unfold write at hw
    rw [if_neg (by omega), hfp] at hw
    cases hw
  rw [if_neg hf] at hfp
  by_cases hfit : p + sizeofHdr cfg ≤ c.length
  swap
  · rw [if_neg hfit] at hfp
    rw [write_of_exhausted cfg fuel fs e.1 e.2 (by omega) hfp] at hw
    have := Option.some.inj hw
    rw [← this] at hok
    cases hok
  rw [if_pos hfit] at hfp
  by_cases hdat : p + sizeofHdr cfg + e.2.length ≤ c.length
  swap
  · rw [write_data_rejected hact hname hfp hfit (by omega) (by omega)] at hw
    have := Option.some.inj hw
    rw [← this] at hok
    cases hok
  obtain ⟨fs1, hw1, hact1⟩ := write_at_free hact (by omega) hname hfp hdat
  rw [hw1] at hw
  have hr : r = (eRetVal.OK, fs1) := (Option.some.inj hw).symm
  subst hr
  have hk := c_str_length_le e.1
  have hmodl : e.2.length % SIZE_MOD cfg = e.2.length := Nat.mod_eq_of_lt (by omega)
  refine ⟨hname, hdat, hact1, ?_, ?_⟩
  · refine Catalog.append (hcat.frame (written_take hname hdat) (by rw [written_length])) ?_
    refine ⟨hne, ?_, ?_, written_data hdat, by rw [written_length]; exact hdat, rfl⟩
    · rw [written_hdr hname hdat, hdrFilename_mkHdr cfg e.1 _ (by omega),
        c_str_of_no_zero e.1 hnz]
    · rw [written_hdr hname hdat, hdrLength_mkHdr cfg e.1 _ (by omega), hmodl, hmodl]
  · rw [written_drop hname hdat, Nat.add_assoc]
    exact drop_zero_tail c p _ hz

theorem write_packed (hact : ActiveStore cfg fs name c)
    (hM : c.length + sizeofHdr cfg < SIZE_MOD cfg)
    {es : List (Bytes × Bytes)} {fuel : Nat} {e : Bytes × Bytes} {r : eRetVal × FS}
    (hpk : Packed cfg c es)
    (hne : e.1 ≠ []) (hnz : 0 ∉ e.1) (hsz : e.2.length + c.length < SIZE_MOD cfg)
    (hw : write cfg fuel fs e.1 e.2 = some r) (hok : r.1 = eRetVal.OK) :
    ∃ c1, ActiveStore cfg r.2 name c1 ∧ c1.length = c.length ∧ Packed cfg c1 (es ++ [e]) := by
  obtain ⟨p, hcat, hp, hz⟩ := hpk
  obtain ⟨_, hdat, hact1, hcat1, hz1⟩ := write_packed_at hact hM hcat hp hz hne hnz hsz hw hok
  exact ⟨written cfg c p e.1 e.2, hact1, written_length, p + sizeofHdr cfg + e.2.length, hcat1,
    by rw [written_length]; exact hdat, by rw [written_length]; exact hz1⟩

end Fresh

theorem writeAll_packed (cfg : Config) (storeName : Bytes) (fuel C : Nat)
    (hM : C + sizeofHdr cfg < SIZE_MOD cfg) :
    ∀ (ops : List (Bytes × Bytes)) (fs0 : FS) (c0 : Bytes) (es : List (Bytes × Bytes))
      (fs1 : FS),
      ActiveStore cfg fs0 storeName c0 → c0.length = C → Packed cfg c0 es →
      (∀ e ∈ ops, e.1 ≠ [] ∧ 0 ∉ e.1 ∧ e.2.length + C < SIZE_MOD cfg) →
      writeAll cfg fuel fs0 ops = some fs1 →
      ∃ c1, ActiveStore cfg fs1 storeName c1 ∧ c1.length = C ∧ Packed cfg c1 (es ++ ops) := by
  intro ops
  induction ops with
  | nil =>
    intro fs0 c0 es fs1 hact hlen hpk _ hw
    have : fs0 = fs1 := Option.some.inj hw
    subst this
    exact ⟨c0, hact, hlen, by simpa using hpk⟩
  | cons e ops ih =>
    intro fs0 c0 es fs1 hact hlen hpk hops hw
    unfold writeAll at hw
    cases hwr : write cfg fuel fs0 e.1 e.2 with
    | none => rw [hwr] at hw; cases hw
    | some r =>
      rw [hwr] at hw
      simp only at hw
      by_cases hok : r.1 = eRetVal.OK
      · rw [if_pos hok] at hw
        obtain ⟨h1, h2, h3⟩ := hops e (List.mem_cons_self _ _)
        obtain ⟨c1, hact1, hlen1, hpk1⟩ := write_packed hact (by omega) hpk h1 h2
          (by omega) hwr hok
        obtain ⟨c2, hact2, hlen2, hpk2⟩ := ih r.2 c1 (es ++ [e]) fs1 hact1 (by omega) hpk1
          (fun x hx => hops x (List.mem_cons_of_mem _ hx)) hw
        exact ⟨c2, hact2, hlen2, by simpa using hpk2⟩
      · rw [if_neg hok] at hw; cases hw


theorem packed_fresh (cfg : Config) (C : Nat) : Packed cfg (List.replicate C 0) [] :=
  ⟨0, rfl, Nat.zero_le _, by simp⟩

section FreshReads

variable {cfg : Config} {fs : FS} {name c : Bytes}

theorem read_zero_tail (hact : ActiveStore cfg fs name c)
    (hM : c.length + sizeofHdr cfg < SIZE_MOD cfg) (filename : Bytes)
    (hq : c_str filename ≠ []) :
    ∀ (k p f : Nat) (hdr : Bytes), hdr.length = sizeofHdr cfg → p ≤ c.length →
      c.length < p + (k + 1) * sizeofHdr cfg →
      c.drop p = List.replicate (c.length - p) 0 →
      read_loop cfg fs filename (k + 1 + f) p hdr = some none := by
  intro k
  induction k with
  | zero =>
    intro p f hdr _ hp hk _
    rw [Nat.add_right_comm]
    exact hact.read_fail _ _ _ _ (by omega) (by omega)
  | succ k ih =>
    intro p f hdr hlen hp hk hz
    rw [Nat.add_right_comm]
    by_cases hfit : p + sizeofHdr cfg ≤ c.length
    · have hne : ¬ hdrFilename (hdrAt cfg c p) = c_str filename := by
        rw [hdrAt_zero_tail cfg c p hz hfit, hdrFilename_zero]
        exact fun h => hq h.symm
      rw [hact.read_step _ _ _ _ hlen hfit, if_neg hne, hdrAt_zero_tail cfg c p hz hfit,
        hdrLength_zero]
      simp only [add_zero, Nat.mod_mod]
      rw [Nat.mod_eq_of_lt (show p + sizeofHdr cfg < SIZE_MOD cfg by omega)]
      refine ih (p + sizeofHdr cfg) f _ (by simp) hfit ?_ (drop_zero_tail c p _ hz)
      have : (k + 1 + 1) * sizeofHdr cfg = (k + 1) * sizeofHdr cfg + sizeofHdr cfg :=
        Nat.succ_mul _ _
      omega
    · exact hact.read_fail _ _ _ _ (by omega) (by omega)

theorem read_packed_absent (hact : ActiveStore cfg fs name c)
    (hM : c.length + sizeofHdr cfg < SIZE_MOD cfg) (hK : 1 ≤ cfg.SZ_FILENAME_BUF)
    {es : List (Bytes × Bytes)} (hpk : Packed cfg c es) (filename : Bytes)
    (hq : c_str filename ≠ []) (habs : c_str filename ∉ es.map Prod.fst)
    (fuel : Nat) (hfuel : es.length + c.length < fuel) :
    read cfg fuel fs filename = some (eRetVal.FileNotFound, 0, []) := by
  obtain ⟨p, hcat, hp, hz⟩ := hpk
  obtain ⟨f, rfl⟩ : ∃ f, fuel = es.length + (c.length - p + 1 + f) :=
    ⟨fuel - es.length - (c.length - p + 1), by omega⟩
  obtain ⟨hdr1, h1, h2⟩ := read_scan hact (by omega) filename es 0 p (c.length - p + 1 + f)
    (zeroHdr cfg) (by simp [zeroHdr]) hcat habs
  have hH : 1 ≤ sizeofHdr cfg := by unfold sizeofHdr; omega
  have hbound : c.length < p + (c.length - p + 1) * sizeofHdr cfg := by
    have : c.length - p + 1 ≤ (c.length - p + 1) * sizeofHdr cfg :=
      Nat.le_mul_of_pos_right _ hH
    omega
  unfold read
  rw [hact.get_size]
  simp only [h2, read_zero_tail hact hM filename hq (c.length - p) p f hdr1 h1 hp hbound hz]

theorem list_packed (hact : ActiveStore cfg fs name c)
    (hM : c.length + sizeofHdr cfg < SIZE_MOD cfg)
    {es : List (Bytes × Bytes)} (hpk : Packed cfg c es)
    (fuel : Nat) (hfuel : es.length < fuel) :
    list cfg fuel fs = some (eRetVal.OK, es.map Prod.fst) := by
  obtain ⟨p, hcat, hp, hz⟩ := hpk
  obtain ⟨k, rfl⟩ : ∃ k, fuel = es.length + (k + 1) := ⟨fuel - es.length - 1, by omega⟩
  obtain ⟨hdr1, h1, h2⟩ := list_scan hact (by omega) es 0 p (k + 1) (zeroHdr cfg) []
    (by simp [zeroHdr]) hcat
  unfold list
  rw [hact.get_size]
  simp only [h2, List.nil_append]
  by_cases hfit : p + sizeofHdr cfg ≤ c.length
  · have hzero : (hdrAt cfg c p).headD 0 = 0 := by
      rw [hdrAt_zero_tail cfg c p hz hfit]
      cases sizeofHdr cfg <;> simp [List.replicate_succ]
    rw [hact.list_step _ _ _ _ h1 hfit, if_pos hzero]
    rfl
  · rw [hact.list_fail _ _ _ _ (by omega) (by omega)]
    rfl

theorem read_packed_entry (hact : ActiveStore cfg fs name c)
    (hM : c.length < SIZE_MOD cfg)
    {es : List (Bytes × Bytes)} (hpk : Packed cfg c es)
    (hnz : ∀ e ∈ es, 0 ∉ e.1) (hnodup : (es.map Prod.fst).Nodup)
    (e : Bytes × Bytes) (he : e ∈ es) (fuel : Nat) (hfuel : es.length < fuel) :
    read cfg fuel fs e.1 = some (eRetVal.OK, e.2.length, e.2) := by
  obtain ⟨p, hcat, _, _⟩ := hpk
  obtain ⟨es1, es2, rfl⟩ := List.append_of_mem he
  obtain ⟨q, hcat1, a1, a2, a3, a4, a5, a6⟩ := Catalog.split hcat
  have hc : c_str e.1 = e.1 := c_str_of_no_zero e.1 (hnz e he)
  have hnew : c_str e.1 ∉ es1.map Prod.fst := by
    rw [hc]
    rw [List.map_append, List.map_cons] at hnodup
    intro hmem
    have hdis := (List.nodup_append.mp hnodup).2.2
    exact hdis hmem (List.mem_cons_self _ _)
  refine read_at hact hM hcat1 hnew a5 (by rw [hc]; exact a2) a3 a4 ?_
  rw [List.length_append] at hfuel
  omega

end FreshReads

/-- C4. On a fresh store that is selected, after writes with pairwise
distinct, non-empty names that all returned `OK`, `read` of each of the names
returns `OK` with exactly the data written under it. Names are C strings (no
NUL byte); the capacity plus a header or a data length is a `size_t` value. -/
theorem blobs_stay_retrievable (cfg : Config) (fs : FS) (storeName : Bytes) (C fuel : Nat)
    (ops : List (Bytes × Bytes)) (fs1 : FS)
    (hact : ActiveStore cfg fs storeName (List.replicate C 0))
    (hM : C + sizeofHdr cfg < SIZE_MOD cfg)
    (hops : ∀ e ∈ ops, e.1 ≠ [] ∧ 0 ∉ e.1 ∧ e.2.length + C < SIZE_MOD cfg)
    (hnodup : (ops.map Prod.fst).Nodup)
    (hw : writeAll cfg fuel fs ops = some fs1) :
    ∀ e ∈ ops, ∀ fuel1, ops.length < fuel1 →
      read cfg fuel1 fs1 e.1 = some (eRetVal.OK, e.2.length, e.2) := by
  obtain ⟨c1, hact1, hlen1, hpk1⟩ := writeAll_packed cfg storeName fuel C hM ops fs
    (List.replicate C 0) [] fs1 hact (by simp) (packed_fresh cfg C) hops hw
  intro e he fuel1 hfuel
  rw [List.nil_append] at hpk1
  exact read_packed_entry hact1 (by omega) hpk1 (fun x hx => (hops x hx).2.1) hnodup e he
    fuel1 hfuel

/-- Witness of C4: a 64-byte store, `write("a", [1,2,3])`, `write("b", [4,5])`,
then both blobs are read back. -/
theorem blobs_stay_retrievable_witness :
    ∃ fs1, writeAll cfg12 5 (fsZero 64) opsAB = some fs1 ∧
      read cfg12 5 fs1 [97] = some (eRetVal.OK, 3, [1, 2, 3]) ∧
      read cfg12 5 fs1 [98] = some (eRetVal.OK, 2, [4, 5]) :=
  have hsome : (writeAll cfg12 5 (fsZero 64) opsAB).isSome = true := by decide
  have hall := blobs_stay_retrievable cfg12 (fsZero 64) [118] 64 5 opsAB
    ((writeAll cfg12 5 (fsZero 64) opsAB).get hsome)
    (by unfold ActiveStore; decide) (by decide) (by decide) (by decide)
    (Option.some_get hsome).symm
  ⟨(writeAll cfg12 5 (fsZero 64) opsAB).get hsome, (Option.some_get hsome).symm,
    hall ([97], [1, 2, 3]) (by decide) 5 (by decide),
    hall ([98], [4, 5]) (by decide) 5 (by decide)⟩

/-- C5, amended. On a fresh store that is selected, after writes with
non-empty names that all returned `OK`, `list` returns `OK` with exactly those
names in the order of the writes. -/
theorem list_in_order (cfg : Config) (fs : FS) (storeName : Bytes) (C fuel : Nat)
    (ops : List (Bytes × Bytes)) (fs1 : FS)
    (hact : ActiveStore cfg fs storeName (List.replicate C 0))
    (hM : C + sizeofHdr cfg < SIZE_MOD cfg)
    (hops : ∀ e ∈ ops, e.1 ≠ [] ∧ 0 ∉ e.1 ∧ e.2.length + C < SIZE_MOD cfg)
    (hw : writeAll cfg fuel fs ops = some fs1) :
    ∀ fuel1, ops.length < fuel1 →
      list cfg fuel1 fs1 = some (eRetVal.OK, ops.map Prod.fst) := by
  obtain ⟨c1, hact1, hlen1, hpk1⟩ := writeAll_packed cfg storeName fuel C hM ops fs
    (List.replicate C 0) [] fs1 hact (by simp) (packed_fresh cfg C) hops hw
  intro fuel1 hfuel
  rw [List.nil_append] at hpk1
  exact list_packed hact1 (by omega) hpk1 fuel1 hfuel

/-- Witness of C5 as amended: after the writes of `a` and `b`, `list` returns
`a`, `b`. -/
theorem list_in_order_witness :
    ∃ fs1, writeAll cfg12 5 (fsZero 64) opsAB = some fs1 ∧
      list cfg12 5 fs1 = some (eRetVal.OK, [[97], [98]]) :=
  have hsome : (writeAll cfg12 5 (fsZero 64) opsAB).isSome = true := by decide
  ⟨(writeAll cfg12 5 (fsZero 64) opsAB).get hsome, (Option.some_get hsome).symm,
    list_in_order cfg12 (fsZero 64) [118] 64 5 opsAB
      ((writeAll cfg12 5 (fsZero 64) opsAB).get hsome)
      (by unfold ActiveStore; decide) (by decide) (by decide)
      (Option.some_get hsome).symm 5 (by decide)⟩

/-- C5 as stated fails for the empty name, which `write` accepts: on a fresh
64-byte store `write("", [1, 2])` returns `OK`, and `list` then returns `OK`
with no name at all. -/
theorem list_misses_empty_name :
    ActiveStore cfg12 (fsZero 64) [118] (List.replicate 64 0) ∧
      (write cfg12 5 (fsZero 64) [] [1, 2]).map Prod.fst = some eRetVal.OK ∧
      (write cfg12 5 (fsZero 64) [] [1, 2]).bind (fun r => list cfg12 5 r.2)
        = some (eRetVal.OK, []) ∧
      (write cfg12 5 (fsZero 64) [] [1, 2]).bind (fun r => list cfg12 5 r.2)
        ≠ some (eRetVal.OK, [[]]) := by
  refine ⟨by unfold ActiveStore; decide, by decide, by decide, by decide⟩

/-- C6, amended. On a fresh store that is selected, after writes with
non-empty names that all returned `OK`, `read` of a non-empty name that none
of the writes used returns `FileNotFound`, with `*pLen = 0` and no data. -/
theorem read_absent_name (cfg : Config) (fs : FS) (storeName : Bytes) (C fuel : Nat)
    (ops : List (Bytes × Bytes)) (fs1 : FS) (query : Bytes)
    (hact : ActiveStore cfg fs storeName (List.replicate C 0))
    (hM : C + sizeofHdr cfg < SIZE_MOD cfg) (hK : 1 ≤ cfg.SZ_FILENAME_BUF)
    (hops : ∀ e ∈ ops, e.1 ≠ [] ∧ 0 ∉ e.1 ∧ e.2.length + C < SIZE_MOD cfg)
    (hw : writeAll cfg fuel fs ops = some fs1)
    (hq : query ≠ []) (hqz : 0 ∉ query) (habs : query ∉ ops.map Prod.fst) :
    ∀ fuel1, ops.length + C < fuel1 →
      read cfg fuel1 fs1 query = some (eRetVal.FileNotFound, 0, []) := by
  obtain ⟨c1, hact1, hlen1, hpk1⟩ := writeAll_packed cfg storeName fuel C hM ops fs
    (List.replicate C 0) [] fs1 hact (by simp) (packed_fresh cfg C) hops hw
  intro fuel1 hfuel
  rw [List.nil_append] at hpk1
  have hc : c_str query = query := c_str_of_no_zero query hqz
  exact read_packed_absent hact1 (by omega) hK hpk1 query (by rw [hc]; exact hq)
    (by rw [hc]; exact habs) fuel1 (by omega)

/-- Witness of C6 as amended: after the writes of `a` and `b`, `read("c")`
returns `FileNotFound`. -/
theorem read_absent_name_witness :
    ∃ fs1, writeAll cfg12 5 (fsZero 64) opsAB = some fs1 ∧
      read cfg12 67 fs1 [99] = some (eRetVal.FileNotFound, 0, []) :=
  have hsome : (writeAll cfg12 5 (fsZero 64) opsAB).isSome = true := by decide
  ⟨(writeAll cfg12 5 (fsZero 64) opsAB).get hsome, (Option.some_get hsome).symm,
    read_absent_name cfg12 (fsZero 64) [118] 64 5 opsAB
      ((writeAll cfg12 5 (fsZero 64) opsAB).get hsome) [99]
      (by unfold ActiveStore; decide) (by decide) (by decide) (by decide)
      (Option.some_get hsome).symm (by decide) (by decide) (by decide) 67 (by decide)⟩

/-- C6 as stated fails in two ways. On a fresh 64-byte store, before any
write, `read("")` matches the empty header at offset 0 and returns `OK`. And
after `write("", d)` and `write("y", [])`, which both return `OK`, the bytes of
`d` that the second write left behind read as a header named `x`, so that
`read("x")` returns `OK` although no write used that name. -/
theorem read_absent_name_found :
    ActiveStore cfg12 (fsZero 64) [118] (List.replicate 64 0) ∧
      read cfg12 5 (fsZero 64) [] = some (eRetVal.OK, 0, []) ∧
      read cfg12 5 (fsZero 64) [] ≠ some (eRetVal.FileNotFound, 0, []) ∧
      (writeAll cfg12 5 (fsZero 64) opsGhost).isSome = true ∧
      [120] ∉ opsGhost.map Prod.fst ∧
      (writeAll cfg12 5 (fsZero 64) opsGhost).bind (fun fs1 => read cfg12 5 fs1 [120])
        = some (eRetVal.OK, 0, []) ∧
      (writeAll cfg12 5 (fsZero 64) opsGhost).bind (fun fs1 => read cfg12 5 fs1 [120])
        ≠ some (eRetVal.FileNotFound, 0, []) := by
  refine ⟨by unfold ActiveStore; decide, by decide, by decide, by decide, by decide,
    by decide, by decide⟩

/-! ## The frame of `write_raw` -/

theorem write_raw_ok_state {cfg : Config} {fs : FS} {name content : Bytes}
    (hact : ActiveStore cfg fs name content) (addr : Nat) (data : Bytes)
    (hok : (write_raw cfg fs addr data).1 = eRetVal.OK) :
    (write_raw cfg fs addr data).2 = fwrite_wb fs name (memcpy cfg content addr data) := by
  rw [hact.write_raw] at hok ⊢
  by_cases h : (addr + data.length) % SIZE_MOD cfg > content.length
  · rw [if_pos h] at hok; cases hok
  · rw [if_neg h]

theorem fwrite_wb_other (fs : FS) (name content p : Bytes) (hname : c_str name = name)
    (hp : p ≠ name) : fwrite_wb fs name content p = fs p := by
  unfold fwrite_wb
  rw [hname, if_neg hp]

/-- The frame of `write_raw` for a range that lies inside the store: the call
returns `OK`; the active store keeps its size and its bytes before `addr` and
from `addr + length` on; every other file, the context record among them, is
unchanged, and so is the selection. -/
theorem write_raw_frame_inside (cfg : Config) (fs : FS) (name content : Bytes) (addr : Nat)
    (data : Bytes)
    (hact : ActiveStore cfg fs name content)
    (hfit : addr + data.length ≤ content.length) :
    (write_raw cfg fs addr data).1 = eRetVal.OK ∧
      (∃ c1, ActiveStore cfg (write_raw cfg fs addr data).2 name c1 ∧
        c1.length = content.length ∧ c1.take addr = content.take addr ∧
        c1.drop (addr + data.length) = content.drop (addr + data.length)) ∧
      (∀ p, p ≠ name → (write_raw cfg fs addr data).2 p = fs p) ∧
      (write_raw cfg fs addr data).2 (c_str cfg.FILENAME_CONTEXT)
        = fs (c_str cfg.FILENAME_CONTEXT) ∧
      get_context cfg (write_raw cfg fs addr data).2 = get_context cfg fs := by
  have hle : ¬ (addr + data.length) % SIZE_MOD cfg > content.length := by
    have := Nat.mod_le (addr + data.length) (SIZE_MOD cfg)
    omega
  have hok : (write_raw cfg fs addr data).1 = eRetVal.OK := by
    rw [hact.write_raw, if_neg hle]
  have hst := write_raw_ok_state hact addr data hok
  have hact1 := hact.update (memcpy cfg content addr data)
  have hother : ∀ p, p ≠ name → (write_raw cfg fs addr data).2 p = fs p := by
    intro p hp
    rw [hst]
    exact fwrite_wb_other fs name _ p hact.c_str_name hp
  refine ⟨hok, ⟨memcpy cfg content addr data, ?_, memcpy_length _ _ _ _,
    memcpy_take cfg content addr addr data hfit (Nat.le_refl _),
    memcpy_drop cfg content addr _ data hfit (Nat.le_refl _)⟩, hother,
    hother _ (fun h => hact.2.2.1 h.symm), ?_⟩
  · rw [hst]; exact hact1
  · rw [hst, hact1.1, hact.1]

/-- C11, evaluated where the claim fails: on the 4-byte store of `fsRaw`,
`write_raw(2^64 - 1, {0, 2}, 2)` passes the capacity test, because the sum of
address and length wraps to 1, and returns `OK`. The second data byte goes to
`buf + (2^64 - 1) + 1`, which is `buf`: byte 0 of the store changes from 10 to
2, although offset 0 lies before `addr` and so outside `[addr, addr + 2)`. -/
theorem write_raw_outside_range :
    ActiveStore cfg0 fsRaw [118] [10, 20, 30, 40] ∧
      (write_raw cfg0 fsRaw (2 ^ 64 - 1) [0, 2]).1 = eRetVal.OK ∧
      (write_raw cfg0 fsRaw (2 ^ 64 - 1) [0, 2]).2 [118] = some [2, 20, 30, 40] ∧
      0 < 2 ^ 64 - 1 ∧
      ¬ (∃ c1, (write_raw cfg0 fsRaw (2 ^ 64 - 1) [0, 2]).2 [118] = some c1 ∧
        c1.take (2 ^ 64 - 1) = ([10, 20, 30, 40] : Bytes).take (2 ^ 64 - 1)) := by
  refine ⟨by unfold ActiveStore; decide, by decide, by decide, by decide, ?_⟩
  rintro ⟨c1, h1, h2⟩
  have h3 : (write_raw cfg0 fsRaw (2 ^ 64 - 1) [0, 2]).2 [118] = some [2, 20, 30, 40] := by
    decide
  rw [h3] at h1
  have h4 : c1 = [2, 20, 30, 40] := (Option.some.inj h1).symm
  subst h4
  revert h2
  decide

/-! ## Names written twice -/

theorem read_packed_first {cfg : Config} {fs : FS} {name c : Bytes}
    (hact : ActiveStore cfg fs name c) (hM : c.length < SIZE_MOD cfg)
    {es1 es2 : List (Bytes × Bytes)} {e : Bytes × Bytes}
    (hpk : Packed cfg c (es1 ++ e :: es2))
    (hnz : 0 ∉ e.1) (hnew : e.1 ∉ es1.map Prod.fst)
    (fuel : Nat) (hfuel : es1.length < fuel) :
    read cfg fuel fs e.1 = some (eRetVal.OK, e.2.length, e.2) := by
  obtain ⟨p, hcat, _, _⟩ := hpk
  obtain ⟨q, hcat1, a1, a2, a3, a4, a5, a6⟩ := Catalog.split hcat
  have hc : c_str e.1 = e.1 := c_str_of_no_zero e.1 hnz
  exact read_at hact hM hcat1 (by rw [hc]; exact hnew) a5 (by rw [hc]; exact a2) a3 a4 hfuel

/-- First match wins when every write carries a non-empty name: on a fresh
store that is selected, let such writes all return `OK`, among them
`write(n, d1)` as the first one under the name `n` and later `write(n, d2)`.
Then `read(n)` returns `d1`, and `list` returns the names in the order of the
writes, with `n` at least twice. -/
theorem first_match_wins (cfg : Config) (fs : FS) (storeName : Bytes) (C fuel : Nat)
    (pre mid post : List (Bytes × Bytes)) (n d1 d2 : Bytes) (fs1 : FS)
    (hact : ActiveStore cfg fs storeName (List.replicate C 0))
    (hM : C + sizeofHdr cfg < SIZE_MOD cfg)
    (hops : ∀ e ∈ pre ++ (n, d1) :: (mid ++ (n, d2) :: post),
      e.1 ≠ [] ∧ 0 ∉ e.1 ∧ e.2.length + C < SIZE_MOD cfg)
    (hnew : n ∉ pre.map Prod.fst)
    (hw : writeAll cfg fuel fs (pre ++ (n, d1) :: (mid ++ (n, d2) :: post)) = some fs1) :
    ∀ fuel1, (pre ++ (n, d1) :: (mid ++ (n, d2) :: post)).length < fuel1 →
      read cfg fuel1 fs1 n = some (eRetVal.OK, d1.length, d1) ∧
      list cfg fuel1 fs1 = some (eRetVal.OK,
        pre.map Prod.fst ++ n :: (mid.map Prod.fst ++ n :: post.map Prod.fst)) ∧
      2 ≤ (pre.map Prod.fst ++ n :: (mid.map Prod.fst ++ n :: post.map Prod.fst)).count n := by
  obtain ⟨c1, hact1, hlen1, hpk1⟩ := writeAll_packed cfg storeName fuel C hM _ fs
    (List.replicate C 0) [] fs1 hact (by simp) (packed_fresh cfg C) hops hw
  intro fuel1 hfuel
  rw [List.nil_append] at hpk1
  have hn := hops (n, d1) (by simp)
  refine ⟨?_, ?_, ?_⟩
  · have hlt : pre.length < fuel1 := by
      rw [List.length_append] at hfuel
      omega
    have hfirst : read cfg fuel1 fs1 (n, d1).1 = some (eRetVal.OK, (n, d1).2.length, (n, d1).2) :=
      read_packed_first hact1 (by omega) hpk1 hn.2.1 hnew fuel1 hlt
    exact hfirst
  · rw [list_packed hact1 (by omega) hpk1 fuel1 hfuel]
    simp
  · simp only [List.count_append, List.count_cons_self]
    omega

/-- An instance of `first_match_wins`: `n` is written with `[7]`, then `b`,
then `n` with `[9]`; `read("n")` returns `[7]` and `list` returns `n`, `b`,
`n`. -/
theorem first_match_wins_witness :
    ∃ fs1, writeAll cfg12 5 (fsZero 64) opsDup = some fs1 ∧
      read cfg12 5 fs1 [110] = some (eRetVal.OK, 1, [7]) ∧
      list cfg12 5 fs1 = some (eRetVal.OK, [[110], [98], [110]]) :=
  have hsome : (writeAll cfg12 5 (fsZero 64) opsDup).isSome = true := by decide
  have h := first_match_wins cfg12 (fsZero 64) [118] 64 5 [] [([98], [4, 5])] [] [110] [7] [9]
    ((writeAll cfg12 5 (fsZero 64) opsDup).get hsome)
    (by unfold ActiveStore; decide) (by decide) (by decide) (by decide)
    (Option.some_get hsome).symm 5 (by decide)
  ⟨(writeAll cfg12 5 (fsZero 64) opsDup).get hsome, (Option.some_get hsome).symm, h.1, h.2.1⟩

/-- C12, evaluated where the claim fails. On a fresh 64-byte store the four
writes of `opsWrap` all return `OK`: `n` with `[7]`, the empty name with
twelve bytes, `b`, and `n` with `[9]`. The twelve bytes are left behind the
header of `b` and read as a header of length `2^64 - 36`; the offset after it,
`25 + 12 + (2^64 - 36)`, wraps to 1 in `size_t`, so the free-position scan of
the fourth write ends at offset 1, inside the first header, which the write
overwrites: `read("n")` then returns `FileNotFound` instead of `[7]`. With
the length 3 in place of `2^64 - 36` nothing wraps and `read("n")` returns
`[7]`. -/
theorem first_match_lost :
    ActiveStore cfg12 (fsZero 64) [118] (List.replicate 64 0) ∧
      (writeAll cfg12 6 (fsZero 64) opsWrap).isSome = true ∧
      (writeAll cfg12 6 (fsZero 64) (opsWrap.take 3)).bind
        (fun fs1 => get_free_pos cfg12 6 fs1) = some 1 ∧
      (writeAll cfg12 6 (fsZero 64) opsWrap).bind (fun fs1 => read cfg12 6 fs1 [110])
        = some (eRetVal.FileNotFound, 0, []) ∧
      (writeAll cfg12 6 (fsZero 64) opsWrap).bind (fun fs1 => read cfg12 6 fs1 [110])
        ≠ some (eRetVal.OK, [7].length, [7]) ∧
      (writeAll cfg12 6 (fsZero 64) opsNoWrap).bind (fun fs1 => read cfg12 6 fs1 [110])
        = some (eRetVal.OK, [7].length, [7]) := by
  refine ⟨by unfold ActiveStore; decide, by decide, by decide, by decide, by decide,
    by decide⟩

/-! ## The name claimed by `create`, and the selection -/

theorem create_first_free (cfg : Config) (fs : FS) (size closedCount : Nat)
    (name : Bytes) (fs1 : FS)
    (h : create cfg fs size closedCount = (eRetVal.OK, some name, fs1)) :
    ∃ i, i < cfg.N_VEPROMS_ALLOWED ∧ name = candidate cfg i ∧
      fopen_rb fs (candidate cfg i) = none ∧
      (∀ j, j < i → fopen_rb fs (candidate cfg j) ≠ none) ∧
      fs1 = fwrite_wb fs name (List.replicate size 0) := by
  by_cases hfree : ∃ j, 0 ≤ j ∧ j < 0 + cfg.N_VEPROMS_ALLOWED ∧
      fopen_rb fs (candidate cfg j) = none
  · obtain ⟨i, _, hi, hnone, hleast, hloop⟩ :=
      create_loop_first_free cfg fs cfg.N_VEPROMS_ALLOWED 0 Fid.null hfree
    unfold create at h
    rw [hloop] at h
    simp only [Prod.mk.injEq, Option.some.injEq, true_and] at h
    obtain ⟨h1, h2⟩ := h
    subst h1
    exact ⟨i, by omega, rfl, hnone, fun j hj => hleast j (Nat.zero_le _) hj, h2.symm⟩
  · exfalso
    have hall : ∀ j, j < cfg.N_VEPROMS_ALLOWED → fopen_rb fs (candidate cfg j) ≠ none := by
      intro j hj hn
      exact hfree ⟨j, Nat.zero_le _, by omega, hn⟩
    by_cases hN : 0 < cfg.N_VEPROMS_ALLOWED
    · rw [create_all_taken cfg fs size closedCount hN hall] at h
      split at h <;> simp at h
    · have h0 : cfg.N_VEPROMS_ALLOWED = 0 := by omega
      unfold create at h
      rw [h0] at h
      simp [create_loop] at h

/-- C13, evaluated where the claim fails: with a store under each of the 256
candidate names, `create(0)` returns `OK` although no name is free: the stream
pointer still holds the stream closed last, `fwrite` of zero bytes reports
zero, which equals the size, and `OK` is returned with no name assigned and no
store created. -/
theorem create_ok_without_name :
    (∀ j, j < cfg0.N_VEPROMS_ALLOWED → fopen_rb fsFull (candidate cfg0 j) ≠ none) ∧
      create cfg0 fsFull 0 0 = (eRetVal.OK, none, fsFull) ∧
      ¬ ∃ i, i < cfg0.N_VEPROMS_ALLOWED ∧ fopen_rb fsFull (candidate cfg0 i) = none ∧
        (create cfg0 fsFull 0 0).2.1 = some (candidate cfg0 i) := by
  refine ⟨fsFull_all_taken, ?_, ?_⟩
  · rw [create_all_taken cfg0 fsFull 0 0 (by decide) fsFull_all_taken]
    simp
  · rintro ⟨i, hi, hnone, _⟩
    exact fsFull_all_taken i hi hnone

/-- C14. For a name without NUL byte, `load(name)` returns `ContextNotFound`
exactly when no file of that name exists (the empty name names no file), and
then the file system, hence the context record and the result of
`get_context`, is as before. This holds whatever becomes of the stream that
`load` leaves open on its other path. -/
theorem load_not_found (cfg : Config) (fs : FS) (filename : Bytes) (flushed : Bool)
    (hnz : 0 ∉ filename) :
    ((load cfg fs filename flushed).1 = eRetVal.ContextNotFound ↔
        (filename = [] ∨ fs filename = none)) ∧
      ((load cfg fs filename flushed).1 = eRetVal.ContextNotFound →
        (load cfg fs filename flushed).2 = fs ∧
          get_context cfg (load cfg fs filename flushed).2 = get_context cfg fs) := by
  have hc : c_str filename = filename := c_str_of_no_zero filename hnz
  have hopen : fopen_rb fs filename = if filename = [] then none else fs filename := by
    unfold fopen_rb; rw [hc]
  have hst : (load cfg fs filename flushed).1 = eRetVal.ContextNotFound →
      (load cfg fs filename flushed).2 = fs := by
    unfold load
    cases fopen_rb fs filename with
    | none => intro _; rfl
    | some c => intro h; cases h
  refine ⟨?_, fun h => ⟨hst h, by rw [hst h]⟩⟩
  unfold load
  rw [hopen]
  by_cases he : filename = []
  · simp [he]
  · rw [if_neg he]
    cases hf : fs filename with
    | none => simp
    | some c => simp [he]

/-- Witness of C14: with the store `v` selected, `load("w")` finds no file and
leaves the selection; `load("v")` does not return `ContextNotFound`. -/
theorem load_not_found_witness :
    (∀ flushed, (load cfg0 fsRaw [119] flushed).1 = eRetVal.ContextNotFound ∧
        get_context cfg0 (load cfg0 fsRaw [119] flushed).2 = get_context cfg0 fsRaw) ∧
      get_context cfg0 fsRaw = [118] ∧
      (∀ flushed, (load cfg0 fsRaw [118] flushed).1 ≠ eRetVal.ContextNotFound) :=
  ⟨fun flushed =>
      have hw := load_not_found cfg0 fsRaw [119] flushed (by decide)
      ⟨hw.1.mpr (Or.inr (by decide)), (hw.2 (hw.1.mpr (Or.inr (by decide)))).2⟩,
    by decide,
    fun flushed h => by
      have h1 := (load_not_found cfg0 fsRaw [118] flushed (by decide)).1.mp h
      revert h1
      decide⟩

/-- C15, amended. For a name without NUL byte of at most
`SZ_FILENAME_BUF - 1` bytes under which a file exists, `load(name)` returns
`OK`, and once the name that `load` wrote has reached the context record,
`get_context()` returns exactly that name, whatever was recorded before. -/
theorem load_then_context (cfg : Config) (fs : FS) (filename content : Bytes)
    (hnz : 0 ∉ filename) (hne : filename ≠ [])
    (hlen : filename.length ≤ cfg.SZ_FILENAME_BUF - 1)
    (hctx : c_str cfg.FILENAME_CONTEXT ≠ [])
    (hfile : fs filename = some content) :
    (∀ flushed, (load cfg fs filename flushed).1 = eRetVal.OK) ∧
      get_context cfg (load cfg fs filename true).2 = filename := by
  have hc : c_str filename = filename := c_str_of_no_zero filename hnz
  have hopen : fopen_rb fs filename = some content := by
    unfold fopen_rb; rw [hc, if_neg hne, hfile]
  unfold load
  rw [hopen]
  refine ⟨fun _ => rfl, ?_⟩
  unfold get_context fopen_rb
  rw [if_neg hctx]
  simp only [fwrite_wb, if_true]
  rw [List.take_of_length_le hlen, hc]

/-- Witness of C15 as amended: `A` was selected, `B` is selected instead. -/
theorem load_then_context_witness :
    get_context cfg0 fsTwo = [65] ∧
      (∀ flushed, (load cfg0 fsTwo [66] flushed).1 = eRetVal.OK) ∧
      get_context cfg0 (load cfg0 fsTwo [66] true).2 = [66] :=
  ⟨by decide,
    load_then_context cfg0 fsTwo [66] (List.replicate 8 0) (by decide) (by decide) (by decide)
      (by decide) (by decide)⟩

/-- C15 as stated fails for a name as long as the name buffer: with a name
buffer of 4 bytes and the store `abcd`, `load("abcd")` returns `OK`, and
`get_context()` returns `abc` once the name has reached the context record;
in no case does it return `abcd`. -/
theorem load_then_context_truncated :
    fsLong [97, 98, 99, 100] = some [0, 0] ∧
      (∀ flushed, (load cfg12 fsLong [97, 98, 99, 100] flushed).1 = eRetVal.OK) ∧
      get_context cfg12 (load cfg12 fsLong [97, 98, 99, 100] true).2 = [97, 98, 99] ∧
      (∀ flushed, get_context cfg12 (load cfg12 fsLong [97, 98, 99, 100] flushed).2
        ≠ [97, 98, 99, 100]) := by
  refine ⟨by decide, by decide, by decide, by decide⟩

/-- C16. When `get_context()` returns the empty string, `read_raw` and
`write_raw` return `ContextNotLoaded` for all arguments and `get_size` returns
`false`; when the recorded name is not the name of an existing file, both
return a result other than `OK`. In either case the file system is as it
was. -/
theorem no_store_no_raw_access (cfg : Config) (fs : FS) :
    (get_context cfg fs = [] →
        get_size cfg fs = none ∧
        ∀ addr length data,
          read_raw cfg fs addr length = (eRetVal.ContextNotLoaded, []) ∧
          write_raw cfg fs addr data = (eRetVal.ContextNotLoaded, fs)) ∧
      (fopen_rb fs (get_context cfg fs) = none →
        get_size cfg fs = none ∧
        ∀ addr length data,
          (read_raw cfg fs addr length).1 ≠ eRetVal.OK ∧
          (write_raw cfg fs addr data).1 ≠ eRetVal.OK ∧
          (write_raw cfg fs addr data).2 = fs) := by
  constructor
  · intro h
    refine ⟨by unfold get_size; simp [h], fun addr length data => ?_⟩
    unfold read_raw write_raw
    simp [h]
  · intro h
    have hs : get_size cfg fs = none := by
      unfold get_size
      simp only [h]
      split <;> rfl
    refine ⟨hs, fun addr length data => ?_⟩
    unfold read_raw write_raw
    simp only [hs]
    by_cases h0 : get_context cfg fs = []
    · simp [h0]
    · simp [h0]

/-- Witness of C16: no context record in `fsNoCtx`, and a context record that
names a missing file in `fsStale`. -/
theorem no_store_no_raw_access_witness :
    get_context cfg0 fsNoCtx = [] ∧ get_size cfg0 fsNoCtx = none ∧
      read_raw cfg0 fsNoCtx 0 1 = (eRetVal.ContextNotLoaded, []) ∧
      write_raw cfg0 fsNoCtx 0 [1] = (eRetVal.ContextNotLoaded, fsNoCtx) ∧
      get_context cfg0 fsStale = [119] ∧
      (read_raw cfg0 fsStale 0 1).1 ≠ eRetVal.OK ∧
      (write_raw cfg0 fsStale 0 [1]).1 ≠ eRetVal.OK ∧
      (write_raw cfg0 fsStale 0 [1]).2 = fsStale :=
  have h1 := (no_store_no_raw_access cfg0 fsNoCtx).1 (by decide)
  have h2 := (no_store_no_raw_access cfg0 fsStale).2 (by decide)
  ⟨by decide, h1.1, (h1.2 0 1 [1]).1, (h1.2 0 1 [1]).2, by decide, (h2.2 0 1 [1]).1,
    (h2.2 0 1 [1]).2.1, (h2.2 0 1 [1]).2.2⟩

/-! ## The bytes of a catalogue built by `write` -/

theorem layout_append (cfg : Config) :
    ∀ es1 es2 : List (Bytes × Bytes),
      layout cfg (es1 ++ es2) = layout cfg es1 ++ layout cfg es2 := by
  intro es1
  induction es1 with
  | nil => intro es2; rfl
  | cons e es ih => intro es2; simp [layout, ih]

theorem totalSize_append (cfg : Config) :
    ∀ es1 es2 : List (Bytes × Bytes),
      totalSize cfg (es1 ++ es2) = totalSize cfg es1 + totalSize cfg es2 := by
  intro es1
  induction es1 with
  | nil => intro es2; simp [totalSize]
  | cons e es ih => intro es2; simp [totalSize, ih]; omega

theorem Catalog.end_eq {cfg : Config} {c : Bytes} :
    ∀ {es : List (Bytes × Bytes)} {pos p : Nat}, Catalog cfg c pos es p →
      p = pos + totalSize cfg es := by
  intro es
  induction es with
  | nil => intro pos p h; have : pos = p := h; simp [totalSize, this]
  | cons e es ih =>
    intro pos p h
    have := ih h.2.2.2.2.2
    simp only [totalSize]
    omega

theorem mkHdr_eq_hdrOf (cfg : Config) (n : Bytes) (l : Nat) (hnz : 0 ∉ n)
    (hl : l < SIZE_MOD cfg) : mkHdr cfg n (l % SIZE_MOD cfg) = hdrOf cfg n l := by
  unfold mkHdr hdrOf
  rw [c_str_of_no_zero n hnz, Nat.mod_eq_of_lt hl]

theorem slices_of (X : Bytes) (p h l : Nat) :
    X = X.take p ++ (X.drop p).take h ++ (X.drop (p + h)).take l ++ X.drop (p + h + l) := by
  have e1 : (X.drop (p + h)).take l ++ X.drop (p + h + l) = X.drop (p + h) :=
    List.drop_take_append_drop X (p + h) l
  have e2 : (X.drop p).take h ++ X.drop (p + h) = X.drop p :=
    List.drop_take_append_drop X p h
  rw [List.append_assoc, e1, List.append_assoc, e2, List.take_append_drop]

theorem written_eq {cfg : Config} {c : Bytes} {p : Nat} {filename data : Bytes}
    (hname : filename.length < cfg.SZ_FILENAME_BUF)
    (hfit : p + sizeofHdr cfg + data.length ≤ c.length) :
    written cfg c p filename data
      = c.take p ++ mkHdr cfg filename (data.length % SIZE_MOD cfg) ++ data
          ++ c.drop (p + sizeofHdr cfg + data.length) := by
  have h := slices_of (written cfg c p filename data) p (sizeofHdr cfg) data.length
  rw [written_take hname hfit, written_data hfit, written_drop hname hfit] at h
  have hh : hdrAt cfg (written cfg c p filename data) p
      = mkHdr cfg filename (data.length % SIZE_MOD cfg) := written_hdr hname hfit
  unfold hdrAt at hh
  rw [hh] at h
  exact h

theorem writeAll_layout (cfg : Config) (storeName : Bytes) (fuel C : Nat)
    (hM : C + sizeofHdr cfg < SIZE_MOD cfg) :
    ∀ (ops : List (Bytes × Bytes)) (fs0 : FS) (es : List (Bytes × Bytes)) (p : Nat)
      (fs1 : FS),
      ActiveStore cfg fs0 storeName (layout cfg es ++ List.replicate (C - p) 0) →
      Catalog cfg (layout cfg es ++ List.replicate (C - p) 0) 0 es p → p ≤ C →
      (layout cfg es).length = p →
      (∀ e ∈ ops, e.1 ≠ [] ∧ 0 ∉ e.1 ∧ e.2.length + C < SIZE_MOD cfg) →
      writeAll cfg fuel fs0 ops = some fs1 →
      ∃ p1, ActiveStore cfg fs1 storeName
          (layout cfg (es ++ ops) ++ List.replicate (C - p1) 0) ∧
        Catalog cfg (layout cfg (es ++ ops) ++ List.replicate (C - p1) 0) 0 (es ++ ops) p1 ∧
        p1 ≤ C ∧ (layout cfg (es ++ ops)).length = p1 := by
  intro ops
  induction ops with
  | nil =>
    intro fs0 es p fs1 hact hcat hp hL _ hw
    have : fs0 = fs1 := Option.some.inj hw
    subst this
    rw [List.append_nil]
    exact ⟨p, hact, hcat, hp, hL⟩
  | cons e ops ih =>
    intro fs0 es p fs1 hact hcat hp hL hops hw
    unfold writeAll at hw
    cases hwr : write cfg fuel fs0 e.1 e.2 with
    | none => rw [hwr] at hw; cases hw
    | some r =>
      rw [hwr] at hw
      simp only at hw
      by_cases hok : r.1 = eRetVal.OK
      swap
      · rw [if_neg hok] at hw; cases hw
      rw [if_pos hok] at hw
      obtain ⟨h1, h2, h3⟩ := hops e (List.mem_cons_self _ _)
      have hclen : (layout cfg es ++ List.replicate (C - p) 0).length = C := by
        rw [List.length_append, List.length_replicate, hL]; omega
      have hz : (layout cfg es ++ List.replicate (C - p) 0).drop p
          = List.replicate ((layout cfg es ++ List.replicate (C - p) 0).length - p) 0 := by
        rw [List.drop_left' hL, hclen]
      obtain ⟨hname, hdat, hact1, hcat1, _⟩ := write_packed_at hact (by omega) hcat
        (by omega) hz h1 h2 (by omega) hwr hok
      rw [hclen] at hdat
      have hnew : written cfg (layout cfg es ++ List.replicate (C - p) 0) p e.1 e.2
          = layout cfg (es ++ [e])
              ++ List.replicate (C - (p + sizeofHdr cfg + e.2.length)) 0 := by
        rw [written_eq hname (by rw [hclen]; exact hdat), List.take_left' hL,
          mkHdr_eq_hdrOf cfg e.1 e.2.length h2 (by omega), Nat.add_assoc,
          drop_zero_tail _ p _ hz, hclen, layout_append]
        simp [layout, Nat.add_assoc]
      rw [hnew] at hact1 hcat1
      have hL1 : (layout cfg (es ++ [e])).length = p + sizeofHdr cfg + e.2.length := by
        have hlen := congrArg List.length hnew
        rw [written_length, hclen, List.length_append, List.length_replicate] at hlen
        omega
      obtain ⟨p1, g1, g2, g3, g4⟩ := ih r.2 (es ++ [e]) (p + sizeofHdr cfg + e.2.length) fs1
        hact1 hcat1 hdat hL1 (fun x hx => hops x (List.mem_cons_of_mem _ hx)) hw
      rw [List.append_assoc, List.singleton_append] at g1 g2 g4
      exact ⟨p1, g1, g2, g3, g4⟩

/-- C17. On a fresh store of capacity `C` that is selected, after writes with
non-empty names that all returned `OK`, the store holds exactly the headers
and data of the writes, packed one after the other, followed by zero bytes up
to `C`; `get_free_pos()` returns the sum of header size plus data length over
the writes when one more header fits there, and `-1` otherwise. -/
theorem packed_layout (cfg : Config) (fs : FS) (storeName : Bytes) (C fuel : Nat)
    (ops : List (Bytes × Bytes)) (fs1 : FS)
    (hact : ActiveStore cfg fs storeName (List.replicate C 0))
    (hM : C + sizeofHdr cfg < SIZE_MOD cfg)
    (hops : ∀ e ∈ ops, e.1 ≠ [] ∧ 0 ∉ e.1 ∧ e.2.length + C < SIZE_MOD cfg)
    (hw : writeAll cfg fuel fs ops = some fs1) :
    (layout cfg ops).length = totalSize cfg ops ∧ totalSize cfg ops ≤ C ∧
      ActiveStore cfg fs1 storeName
        (layout cfg ops ++ List.replicate (C - totalSize cfg ops) 0) ∧
      ∀ fuel1, ops.length < fuel1 →
        get_free_pos cfg fuel1 fs1 =
          some (if totalSize cfg ops + sizeofHdr cfg ≤ C then totalSize cfg ops
            else SIZE_MOD cfg - 1) := by
  obtain ⟨p1, hact1, hcat1, hp1, hL1⟩ := writeAll_layout cfg storeName fuel C hM ops fs [] 0 fs1
    (by simpa [layout] using hact) rfl (Nat.zero_le _) rfl hops hw
  rw [List.nil_append] at hact1 hcat1 hL1
  have htot : p1 = totalSize cfg ops := by
    have := hcat1.end_eq
    omega
  subst htot
  have hclen : (layout cfg ops ++ List.replicate (C - totalSize cfg ops) 0).length = C := by
    rw [List.length_append, List.length_replicate, hL1]; omega
  refine ⟨hL1, hp1, hact1, ?_⟩
  intro fuel1 hfuel
  have hz : (layout cfg ops ++ List.replicate (C - totalSize cfg ops) 0).drop
        (totalSize cfg ops)
      = List.replicate ((layout cfg ops ++ List.replicate (C - totalSize cfg ops) 0).length
          - totalSize cfg ops) 0 := by
    rw [List.drop_left' hL1, hclen]
  rw [free_pos_packed hact1 (by omega) hcat1 (by omega) hz, if_neg (by omega), hclen]
  split <;> rfl

/-- Witness of C17: after `a` with `[1, 2, 3]` and `b` with `[4, 5]` on a
64-byte store with 12-byte headers, the store holds the two entries in 29
bytes and 35 zero bytes, and the free position is 29. -/
theorem packed_layout_witness :
    ∃ fs1, writeAll cfg12 5 (fsZero 64) opsAB = some fs1 ∧
      fs1 [118] = some ([97, 0, 0, 0, 3, 0, 0, 0, 0, 0, 0, 0, 1, 2, 3,
        98, 0, 0, 0, 2, 0, 0, 0, 0, 0, 0, 0, 4, 5] ++ List.replicate 35 0) ∧
      get_free_pos cfg12 5 fs1 = some 29 :=
  have hsome : (writeAll cfg12 5 (fsZero 64) opsAB).isSome = true := by decide
  have h := packed_layout cfg12 (fsZero 64) [118] 64 5 opsAB
    ((writeAll cfg12 5 (fsZero 64) opsAB).get hsome)
    (by unfold ActiveStore; decide) (by decide) (by decide) (Option.some_get hsome).symm
  ⟨(writeAll cfg12 5 (fsZero 64) opsAB).get hsome, (Option.some_get hsome).symm,
    h.2.2.1.2.2.2, h.2.2.2 5 (by decide)⟩

/-! ## A header whose data did not fit -/

section Rejected

variable {cfg : Config} {fs : FS} {name c : Bytes}

theorem header_only_state {es : List (Bytes × Bytes)} {p : Nat} {n : Bytes} (l : Nat)
    (hcat : Catalog cfg c 0 es p)
    (hnz : 0 ∉ n) (hname : n.length < cfg.SZ_FILENAME_BUF)
    (hl : l < SIZE_MOD cfg)
    (hhdr : p + sizeofHdr cfg ≤ c.length) :
    memcpy cfg c p (mkHdr cfg n (l % SIZE_MOD cfg))
        = c.take p ++ hdrOf cfg n l ++ c.drop (p + sizeofHdr cfg) ∧
      Catalog cfg (memcpy cfg c p (mkHdr cfg n (l % SIZE_MOD cfg))) 0 es p ∧
      hdrFilename (hdrAt cfg (memcpy cfg c p (mkHdr cfg n (l % SIZE_MOD cfg))) p) = n ∧
      hdrLength cfg (hdrAt cfg (memcpy cfg c p (mkHdr cfg n (l % SIZE_MOD cfg))) p) = l := by
  have hk := c_str_length_le n
  have hlen := mkHdr_length cfg n (l % SIZE_MOD cfg) (by omega)
  have hfit : p + (mkHdr cfg n (l % SIZE_MOD cfg)).length ≤ c.length := by omega
  have hat : hdrAt cfg (memcpy cfg c p (mkHdr cfg n (l % SIZE_MOD cfg))) p
      = mkHdr cfg n (l % SIZE_MOD cfg) := by
    have h := read_memcpy cfg c p (mkHdr cfg n (l % SIZE_MOD cfg)) hfit
    rw [hlen] at h
    exact h
  refine ⟨?_, ?_, ?_, ?_⟩
  · rw [memcpy_inside cfg c p _ hfit, hlen, mkHdr_eq_hdrOf cfg n l hnz hl]
  · exact hcat.frame (memcpy_take cfg c p p _ hfit (Nat.le_refl p)) (by rw [memcpy_length])
  · rw [hat, hdrFilename_mkHdr cfg n _ (by omega), c_str_of_no_zero n hnz]
  · rw [hat, hdrLength_mkHdr cfg n _ (by omega), Nat.mod_mod, Nat.mod_eq_of_lt hl]

theorem scans_past_orphan (hact : ActiveStore cfg fs name c)
    {es : List (Bytes × Bytes)} {p fuel : Nat} {n : Bytes} {l : Nat}
    (hM : c.length + sizeofHdr cfg + l + sizeofHdr cfg < SIZE_MOD cfg)
    (hcat : Catalog cfg c 0 es p)
    (hne : n ≠ []) (hnew : n ∉ es.map Prod.fst)
    (hfn : hdrFilename (hdrAt cfg c p) = n) (hln : hdrLength cfg (hdrAt cfg c p) = l)
    (hhdr : p + sizeofHdr cfg ≤ c.length) (hbig : c.length < p + sizeofHdr cfg + l)
    (hfuel : es.length + 1 < fuel) :
    get_free_pos cfg fuel fs = some (SIZE_MOD cfg - 1) ∧
      list cfg fuel fs = some (eRetVal.OK, es.map Prod.fst ++ [n]) ∧
      (0 ∉ n → read cfg fuel fs n = some (eRetVal.FilenameBufferInvalid, 0, [])) := by
  obtain ⟨k, rfl⟩ : ∃ k, fuel = es.length + (k + 1 + 1) := ⟨fuel - es.length - 2, by omega⟩
  have hnz0 : ¬ (hdrAt cfg c p).headD 0 = 0 := by
    rw [← c_str_eq_nil_iff]
    intro h0
    exact hne (hfn ▸ h0)
  have hnext : (p + sizeofHdr cfg + l) % SIZE_MOD cfg = p + sizeofHdr cfg + l :=
    Nat.mod_eq_of_lt (by omega)
  refine ⟨?_, ?_, ?_⟩
  · obtain ⟨hdr1, h1, h2⟩ := free_scan hact (by omega) es 0 p (k + 1 + 1) (zeroHdr cfg)
      (by simp [zeroHdr]) hcat
    unfold get_free_pos
    rw [h2, hact.free_step _ _ _ h1 hhdr, if_neg hnz0, hln, ← Nat.add_assoc, hnext,
      hact.free_fail _ _ _ (by omega) (by omega)]
  · obtain ⟨hdr1, h1, h2⟩ := list_scan hact (by omega) es 0 p (k + 1 + 1) (zeroHdr cfg) []
      (by simp [zeroHdr]) hcat
    unfold list
    rw [hact.get_size]
    simp only [h2, List.nil_append]
    rw [hact.list_step _ _ _ _ h1 hhdr, if_neg hnz0, hln, hnext, hfn,
      hact.list_fail _ _ _ _ (by omega) (by omega)]
    rfl
  · intro hnz
    have hc : c_str n = n := c_str_of_no_zero n hnz
    obtain ⟨hdr1, h1, h2⟩ := read_scan hact (by omega) n es 0 p (k + 1 + 1) (zeroHdr cfg)
      (by simp [zeroHdr]) hcat (by rw [hc]; exact hnew)
    have hout : (p + sizeofHdr cfg + l) % SIZE_MOD cfg > c.length := by
      rw [hnext]; omega
    unfold read
    rw [hact.get_size]
    simp only [h2, hact.read_step _ _ _ _ h1 hhdr, hfn, hc, if_true,
      Nat.mod_eq_of_lt (show p + sizeofHdr cfg < SIZE_MOD cfg by omega), hln,
      hact.read_raw, if_pos hout]
    simp

end Rejected

/-- C18, amended. On an active store whose catalogue `es` is laid out in
increasing order up to the empty header at `p`, for a non-empty name `n` that
is legal and not in the catalogue and data with
`p + header size <= C < p + header size + len(data)`: `write(n, data)` returns
`WriteOutOfBounds`; the store then holds the header `(n, len(data))` at `p` and
is otherwise unchanged; `list` returns the names of the catalogue and `n`;
`read(n)` returns `FilenameBufferInvalid`; and every further `write` with a
legal name returns `WriteFileDriveFull` and changes nothing. -/
theorem header_without_data (cfg : Config) (fs : FS) (storeName c : Bytes)
    (es : List (Bytes × Bytes)) (p fuel : Nat) (n data : Bytes)
    (hact : ActiveStore cfg fs storeName c)
    (hM : c.length + sizeofHdr cfg + data.length + sizeofHdr cfg < SIZE_MOD cfg)
    (hcat : Catalog cfg c 0 es p)
    (hempty : (hdrAt cfg c p).headD 0 = 0)
    (hne : n ≠ []) (hnz : 0 ∉ n) (hname : n.length < cfg.SZ_FILENAME_BUF)
    (hnew : n ∉ es.map Prod.fst)
    (hhdr : p + sizeofHdr cfg ≤ c.length)
    (hbig : c.length < p + sizeofHdr cfg + data.length)
    (hfuel : es.length + 1 < fuel) :
    ∃ fs1, write cfg fuel fs n data = some (eRetVal.WriteOutOfBounds, fs1) ∧
      ActiveStore cfg fs1 storeName
        (c.take p ++ hdrOf cfg n data.length ++ c.drop (p + sizeofHdr cfg)) ∧
      list cfg fuel fs1 = some (eRetVal.OK, es.map Prod.fst ++ [n]) ∧
      read cfg fuel fs1 n = some (eRetVal.FilenameBufferInvalid, 0, []) ∧
      ∀ n2 d2, n2.length ≤ cfg.SZ_FILENAME_BUF - 1 →
        write cfg fuel fs1 n2 d2 = some (eRetVal.WriteFileDriveFull, fs1) := by
  have hfree : get_free_pos cfg fuel fs = some p :=
    free_pos_of_catalog hact (by omega) hcat hhdr hempty (by omega)
  have hw := write_data_rejected hact hname hfree hhdr (by omega) hbig
  have hact1 := hact.update (memcpy cfg c p (mkHdr cfg n (data.length % SIZE_MOD cfg)))
  obtain ⟨hc1, hcat1, hfn, hln⟩ := header_only_state data.length hcat hnz hname (by omega) hhdr
  obtain ⟨g1, g2, g3⟩ := scans_past_orphan hact1
    (by rw [memcpy_length]; exact hM) hcat1 hne hnew hfn hln
    (by rw [memcpy_length]; exact hhdr) (by rw [memcpy_length]; exact hbig) hfuel
  refine ⟨_, hw, ?_, g2, g3 hnz, ?_⟩
  · rw [← hc1]; exact hact1
  · intro n2 d2 hn2
    exact write_of_exhausted cfg fuel _ n2 d2 hn2 g1

/-- Witness of C18 as amended: a fresh store of 20 bytes with 12-byte headers
and nine bytes of data under the name `a`. -/
theorem header_without_data_witness :
    ∃ fs1, write cfg12 3 (fsZero 20) [97] [1, 2, 3, 4, 5, 6, 7, 8, 9]
        = some (eRetVal.WriteOutOfBounds, fs1) ∧
      ActiveStore cfg12 fs1 [118]
        ([97, 0, 0, 0, 9, 0, 0, 0, 0, 0, 0, 0] ++ List.replicate 8 0) ∧
      list cfg12 3 fs1 = some (eRetVal.OK, [[97]]) ∧
      read cfg12 3 fs1 [97] = some (eRetVal.FilenameBufferInvalid, 0, []) ∧
      ∀ n2 d2, n2.length ≤ cfg12.SZ_FILENAME_BUF - 1 →
        write cfg12 3 fs1 n2 d2 = some (eRetVal.WriteFileDriveFull, fs1) :=
  header_without_data cfg12 (fsZero 20) [118] (List.replicate 20 0) [] 0 3 [97]
    [1, 2, 3, 4, 5, 6, 7, 8, 9] (by unfold ActiveStore; decide) (by decide) rfl (by decide)
    (by decide) (by decide) (by decide) (by decide) (by decide) (by decide) (by decide)

/-- C18 as stated fails in its last part: after the rejected write of `a` on
the 20-byte store, a further `write` under the 4-byte name `abcd`, which is
too long for the 4-byte name buffer, returns `FilenameTooLong` and not
`WriteFileDriveFull`. -/
theorem further_write_name_too_long :
    (write cfg12 3 (fsZero 20) [97] [1, 2, 3, 4, 5, 6, 7, 8, 9]).map Prod.fst
        = some eRetVal.WriteOutOfBounds ∧
      ((write cfg12 3 (fsZero 20) [97] [1, 2, 3, 4, 5, 6, 7, 8, 9]).bind
        (fun r => write cfg12 3 r.2 [97, 98, 99, 100] [1])).map Prod.fst
        = some eRetVal.FilenameTooLong ∧
      ((write cfg12 3 (fsZero 20) [97] [1, 2, 3, 4, 5, 6, 7, 8, 9]).bind
        (fun r => write cfg12 3 r.2 [97, 98, 99, 100] [1])).map Prod.fst
        ≠ some eRetVal.WriteFileDriveFull := by
  refine ⟨by decide, by decide, by decide⟩

/-! ## Lookup and listing -/

theorem Catalog.names_no_zero {cfg : Config} {c : Bytes} :
    ∀ {es : List (Bytes × Bytes)} {pos p : Nat}, Catalog cfg c pos es p →
      ∀ e ∈ es, 0 ∉ e.1 := by
  intro es
  induction es with
  | nil => intro pos p _ e he; cases he
  | cons x es ih =>
    intro pos p h e he
    rcases List.mem_cons.mp he with rfl | hmem
    · intro h0
      rw [← h.2.1] at h0
      have := c_str_no_zero _ 0 h0
      simp at this
    · exact ih h.2.2.2.2.2 e hmem

theorem first_occurrence :
    ∀ (es : List (Bytes × Bytes)) (q : Bytes), q ∈ es.map Prod.fst →
      ∃ es1 e es2, es = es1 ++ e :: es2 ∧ e.1 = q ∧ q ∉ es1.map Prod.fst := by
  intro es
  induction es with
  | nil => intro q h; cases h
  | cons x es ih =>
    intro q h
    by_cases hx : x.1 = q
    · exact ⟨[], x, es, rfl, hx, by simp⟩
    · have hmem : q ∈ es.map Prod.fst := by
        rcases List.mem_cons.mp h with h1 | h1
        · exact absurd h1.symm hx
        · exact h1
      obtain ⟨es1, e, es2, h1, h2, h3⟩ := ih q hmem
      refine ⟨x :: es1, e, es2, by rw [h1]; rfl, h2, ?_⟩
      intro hin
      rcases List.mem_cons.mp hin with h4 | h4
      · exact hx h4.symm
      · exact h3 h4

/-- C19, amended. On an active store whose content is a packed catalogue of
entries with non-empty names followed by zero bytes, and for a non-empty query
name: `list` returns the names of the catalogue, `read` returns `OK` exactly
when the query is one of them, and `FileNotFound` otherwise. -/
theorem read_ok_iff_listed (cfg : Config) (fs : FS) (storeName c : Bytes)
    (es : List (Bytes × Bytes)) (query : Bytes) (fuel : Nat)
    (hact : ActiveStore cfg fs storeName c)
    (hM : c.length + sizeofHdr cfg < SIZE_MOD cfg) (hK : 1 ≤ cfg.SZ_FILENAME_BUF)
    (hpk : Packed cfg c es)
    (hq : query ≠ []) (hqz : 0 ∉ query)
    (hfuel : es.length + c.length < fuel) :
    list cfg fuel fs = some (eRetVal.OK, es.map Prod.fst) ∧
      ((∃ len data, read cfg fuel fs query = some (eRetVal.OK, len, data)) ↔
        query ∈ es.map Prod.fst) ∧
      (query ∉ es.map Prod.fst →
        read cfg fuel fs query = some (eRetVal.FileNotFound, 0, [])) := by
  have hc : c_str query = query := c_str_of_no_zero query hqz
  have habs : query ∉ es.map Prod.fst →
      read cfg fuel fs query = some (eRetVal.FileNotFound, 0, []) := by
    intro hn
    exact read_packed_absent hact hM hK hpk query (by rw [hc]; exact hq)
      (by rw [hc]; exact hn) fuel hfuel
  refine ⟨list_packed hact hM hpk fuel (by omega), ⟨?_, ?_⟩, habs⟩
  · rintro ⟨len, data, hr⟩
    by_contra hn
    rw [habs hn] at hr
    cases hr
  · intro hin
    obtain ⟨es1, e, es2, h1, h2, h3⟩ := first_occurrence es query hin
    subst h1
    subst h2
    refine ⟨e.2.length, e.2, read_packed_first hact (by omega) hpk hqz h3 fuel ?_⟩
    rw [List.length_append] at hfuel
    omega

/-- Witness of C19 as amended: the store with the single entry `a`; `read("a")`
returns `OK` and `a` is listed, `read("b")` returns `FileNotFound`. -/
theorem read_ok_iff_listed_witness :
    Packed cfg12 contentA [([97], [1])] ∧
      list cfg12 70 fsA = some (eRetVal.OK, [[97]]) ∧
      (∃ len data, read cfg12 70 fsA [97] = some (eRetVal.OK, len, data)) ∧
      read cfg12 70 fsA [98] = some (eRetVal.FileNotFound, 0, []) :=
  have hpk : Packed cfg12 contentA [([97], [1])] :=
    ⟨13, by simp only [Catalog]; decide, by decide, by decide⟩
  have ha := read_ok_iff_listed cfg12 fsA [118] contentA [([97], [1])] [97] 70
    (by unfold ActiveStore; decide) (by decide) (by decide) hpk (by decide) (by decide)
    (by decide)
  have hb := read_ok_iff_listed cfg12 fsA [118] contentA [([97], [1])] [98] 70
    (by unfold ActiveStore; decide) (by decide) (by decide) hpk (by decide) (by decide)
    (by decide)
  ⟨hpk, ha.1, ha.2.1.mpr (by decide), hb.2.2 (by decide)⟩

/-- C19 as stated fails on content produced by `write_raw`: with an entry `x`
put at offset 12 of a fresh 64-byte store, behind the empty header at offset
0, the free-position scan stops at offset 0 and `list` returns no name, but
`read("x")` goes on past the empty header and returns `OK` with the data. -/
theorem read_finds_unlisted :
    (write_raw cfg12 (fsZero 64) 12 entryX).1 = eRetVal.OK ∧
      get_free_pos cfg12 5 (write_raw cfg12 (fsZero 64) 12 entryX).2 = some 0 ∧
      list cfg12 5 (write_raw cfg12 (fsZero 64) 12 entryX).2 = some (eRetVal.OK, []) ∧
      read cfg12 5 (write_raw cfg12 (fsZero 64) 12 entryX).2 [120]
        = some (eRetVal.OK, 2, [5, 6]) ∧
      ¬ (∀ names, list cfg12 5 (write_raw cfg12 (fsZero 64) 12 entryX).2
          = some (eRetVal.OK, names) → [120] ∈ names) := by
  refine ⟨by decide, by decide, by decide, by decide, ?_⟩
  intro h
  have h1 := h [] (by decide)
  cases h1

/-! ## Scans that do not end -/

theorem fsLoop_active : ActiveStore cfg12 fsLoop [118] contentLoop := by
  unfold ActiveStore; decide

theorem free_loop_spins :
    ∀ (fuel : Nat) (hdr : Bytes), hdr.length = sizeofHdr cfg12 →
      get_free_pos_loop cfg12 fsLoop fuel 0 hdr = none := by
  intro fuel
  induction fuel with
  | zero => intro hdr _; rfl
  | succ f ih =>
    intro hdr hlen
    have hh : hdrAt cfg12 contentLoop 0 = hdrLoop := by decide
    have hpos : (0 + (sizeofHdr cfg12 + hdrLength cfg12 hdrLoop)) % SIZE_MOD cfg12 = 0 := by
      decide
    rw [fsLoop_active.free_step f 0 hdr hlen (by decide), hh, if_neg (by decide), hpos]
    exact ih hdrLoop (by decide)

theorem list_loop_spins :
    ∀ (fuel : Nat) (hdr : Bytes) (acc : List Bytes), hdr.length = sizeofHdr cfg12 →
      list_loop cfg12 fsLoop fuel 0 hdr acc = none := by
  intro fuel
  induction fuel with
  | zero => intro hdr acc _; rfl
  | succ f ih =>
    intro hdr acc hlen
    have hh : hdrAt cfg12 contentLoop 0 = hdrLoop := by decide
    have hpos : (0 + sizeofHdr cfg12 + hdrLength cfg12 hdrLoop) % SIZE_MOD cfg12 = 0 := by
      decide
    rw [fsLoop_active.list_step f 0 hdr acc hlen (by decide), hh, if_neg (by decide), hpos]
    exact ih hdrLoop _ (by decide)

theorem read_loop_spins :
    ∀ (fuel : Nat) (hdr : Bytes), hdr.length = sizeofHdr cfg12 →
      read_loop cfg12 fsLoop [98] fuel 0 hdr = none := by
  intro fuel
  induction fuel with
  | zero => intro hdr _; rfl
  | succ f ih =>
    intro hdr hlen
    have hh : hdrAt cfg12 contentLoop 0 = hdrLoop := by decide
    have hpos : ((0 + sizeofHdr cfg12) % SIZE_MOD cfg12 + hdrLength cfg12 hdrLoop)
        % SIZE_MOD cfg12 = 0 := by
      decide
    rw [fsLoop_active.read_step [98] f 0 hdr hlen (by decide), hh, if_neg (by decide), hpos]
    exact ih hdrLoop (by decide)

/-- C20, evaluated where the claim fails: the 64-byte store whose first header
is named `a` and holds the length `2^64 - 12` (content that `write_raw`
produces). The offset after that header is `0 + 12 + (2^64 - 12)`, which is 0
in `size_t`, so every iteration reads the header at offset 0 again: for no
number of header reads does `get_free_pos`, `list` or `read("b")` return. -/
theorem scans_do_not_end :
    (write_raw cfg12 (fsZero 64) 0 hdrLoop).1 = eRetVal.OK ∧
      (write_raw cfg12 (fsZero 64) 0 hdrLoop).2 [118] = some contentLoop ∧
      ActiveStore cfg12 fsLoop [118] contentLoop ∧ contentLoop.length = 64 ∧
      hdrLength cfg12 hdrLoop = 2 ^ 64 - 12 ∧
      ∀ fuel, get_free_pos cfg12 fuel fsLoop = none ∧ list cfg12 fuel fsLoop = none ∧
        read cfg12 fuel fsLoop [98] = none := by
  refine ⟨by decide, by decide, fsLoop_active, by decide, by decide, fun fuel => ⟨?_, ?_, ?_⟩⟩
  · exact free_loop_spins fuel _ (by decide)
  · unfold list
    rw [fsLoop_active.get_size, list_loop_spins fuel _ _ (by decide)]
    rfl
  · unfold read
    rw [fsLoop_active.get_size, read_loop_spins fuel _ (by decide)]

end Veprom
